import Mathlib

/-!
Verification of the options-strategy backtesting core of `spac_strat`
(`src/options_local_testing/dynamic_helper.py` and
`src/options_local_testing/dynamic_helper_strats_pack.py`).

The pandas pipeline is shallowly embedded over lists of records with
rational-number fields; a float `NaN` cell is modelled as `Option.none`
where the code's behaviour on missing values matters.  All definitions are
executable so that the claim theorems can be instantiated on concrete
tables.
-/

namespace Spec2Proof

/-! ## Generic list helpers: nonempty minimum/maximum, stable sort by key -/

/-- Minimum of `x` and all elements of `xs` (the minimum of a nonempty list,
written `nmin h t` for the list `h :: t`).  Mirrors `np.min` over a nonempty
array. -/
def nmin (x : ℚ) (xs : List ℚ) : ℚ := xs.foldr min x

/-- Maximum of `x` and all elements of `xs`.  Mirrors `np.max`. -/
def nmax (x : ℚ) (xs : List ℚ) : ℚ := xs.foldr max x

theorem nmin_le_head (x : ℚ) (xs : List ℚ) : nmin x xs ≤ x := by
  induction xs with
  | nil => simp [nmin]
  | cons y ys ih => simpa [nmin] using le_trans (min_le_right _ _) ih

theorem nmin_le_mem (x : ℚ) {xs : List ℚ} {y : ℚ} (hy : y ∈ xs) : nmin x xs ≤ y := by
  induction xs with
  | nil => cases hy
  | cons z zs ih =>
    rcases List.mem_cons.mp hy with h | h
    · subst h; exact min_le_left _ _
    · exact le_trans (min_le_right _ _) (ih h)

theorem nmin_eq_head_or_mem (x : ℚ) (xs : List ℚ) : nmin x xs = x ∨ nmin x xs ∈ xs := by
  induction xs with
  | nil => left; rfl
  | cons y ys ih =>
    have hdef : nmin x (y :: ys) = min y (nmin x ys) := rfl
    rcases le_total y (nmin x ys) with h | h
    · right; rw [hdef, min_eq_left h]; exact List.mem_cons_self y ys
    · rw [hdef, min_eq_right h]
      rcases ih with h2 | h2
      · left; exact h2
      · right; exact List.mem_cons_of_mem _ h2

theorem le_nmax_head (x : ℚ) (xs : List ℚ) : x ≤ nmax x xs := by
  induction xs with
  | nil => simp [nmax]
  | cons y ys ih => simpa [nmax] using le_trans ih (le_max_right _ _)

theorem le_nmax_mem (x : ℚ) {xs : List ℚ} {y : ℚ} (hy : y ∈ xs) : y ≤ nmax x xs := by
  induction xs with
  | nil => cases hy
  | cons z zs ih =>
    rcases List.mem_cons.mp hy with h | h
    · subst h; exact le_max_left _ _
    · exact le_trans (ih h) (le_max_right _ _)

theorem nmax_eq_head_or_mem (x : ℚ) (xs : List ℚ) : nmax x xs = x ∨ nmax x xs ∈ xs := by
  induction xs with
  | nil => left; rfl
  | cons y ys ih =>
    have hdef : nmax x (y :: ys) = max y (nmax x ys) := rfl
    rcases le_total (nmax x ys) y with h | h
    · right; rw [hdef, max_eq_left h]; exact List.mem_cons_self y ys
    · rw [hdef, max_eq_right h]
      rcases ih with h2 | h2
      · left; exact h2
      · right; exact List.mem_cons_of_mem _ h2

/-- Insert `a` into `l` before the first element whose key is not below
`key a`; the insertion step of a stable insertion sort (models the stable
`kind="mergesort"` sorts of the pipeline). -/
def insertByKey {α K : Type} [LinearOrder K] (key : α → K) (a : α) : List α → List α
  | [] => [a]
  | b :: t => if key a ≤ key b then a :: b :: t else b :: insertByKey key a t

/-- Stable insertion sort by a key into a linearly ordered type. -/
def sortByKey {α K : Type} [LinearOrder K] (key : α → K) : List α → List α
  | [] => []
  | x :: t => insertByKey key x (sortByKey key t)

theorem mem_insertByKey {α K : Type} [LinearOrder K] (key : α → K) (a b : α)
    (l : List α) : b ∈ insertByKey key a l ↔ b = a ∨ b ∈ l := by
  induction l with
  | nil => simp [insertByKey]
  | cons c t ih =>
    by_cases h : key a ≤ key c
    · simp [insertByKey, h]
    · simp only [insertByKey, if_neg h, List.mem_cons, ih]
      tauto

theorem mem_sortByKey {α K : Type} [LinearOrder K] (key : α → K) (b : α)
    (l : List α) : b ∈ sortByKey key l ↔ b ∈ l := by
  induction l with
  | nil => simp [sortByKey]
  | cons c t ih => simp [sortByKey, mem_insertByKey, ih]

theorem pairwise_insertByKey {α K : Type} [LinearOrder K] (key : α → K) (a : α)
    {l : List α} (h : l.Pairwise (fun x y => key x ≤ key y)) :
    (insertByKey key a l).Pairwise (fun x y => key x ≤ key y) := by
  induction l with
  | nil => simp [insertByKey]
  | cons c t ih =>
    rcases List.pairwise_cons.mp h with ⟨hc, ht⟩
    by_cases hac : key a ≤ key c
    · rw [insertByKey, if_pos hac]
      refine List.pairwise_cons.mpr ⟨?_, h⟩
      intro b hb
      rcases List.mem_cons.mp hb with rfl | hb
      · exact hac
      · exact le_trans hac (hc b hb)
    · rw [insertByKey, if_neg hac]
      refine List.pairwise_cons.mpr ⟨?_, ih ht⟩
      intro b hb
      rcases (mem_insertByKey key a b t).mp hb with rfl | hb
      · exact le_of_not_le hac
      · exact hc b hb

theorem pairwise_sortByKey {α K : Type} [LinearOrder K] (key : α → K)
    (l : List α) : (sortByKey key l).Pairwise (fun x y => key x ≤ key y) := by
  induction l with
  | nil => simp [sortByKey]
  | cons c t ih => exact pairwise_insertByKey key c ih

/-- In a list sorted (pairwise) by `key`, the first element satisfying `p`
has a minimal key among all elements satisfying `p`. -/
theorem find?_pairwise_key_min {α K : Type} [LinearOrder K] {key : α → K}
    {p : α → Bool} : ∀ {l : List α},
    l.Pairwise (fun x y => key x ≤ key y) → ∀ {a : α}, l.find? p = some a →
    ∀ b ∈ l, p b = true → key a ≤ key b := by
  intro l
  induction l with
  | nil => intro _ a h; simp [List.find?] at h
  | cons c t ih =>
    intro hp a hfind b hb hpb
    rcases List.pairwise_cons.mp hp with ⟨hc, ht⟩
    by_cases hpc : p c = true
    · rw [List.find?_cons_of_pos _ hpc] at hfind
      cases hfind
      rcases List.mem_cons.mp hb with rfl | hb
      · exact le_refl _
      · exact hc b hb
    · rw [List.find?_cons_of_neg _ hpc] at hfind
      rcases List.mem_cons.mp hb with rfl | hb
      · exact absurd hpb hpc
      · exact ih ht hfind b hb hpb

/-- The element `find?` returns on `List.range' s n` is the least index in
`[s, s+n)` satisfying `p`: everything before it fails `p`. -/
theorem find?_range'_spec {p : ℕ → Bool} : ∀ (n s : ℕ) {k : ℕ},
    (List.range' s n).find? p = some k →
    p k = true ∧ s ≤ k ∧ k < s + n ∧ ∀ j, s ≤ j → j < k → p j = false := by
  intro n
  induction n with
  | zero => intro s k h; simp [List.range'] at h
  | succ m ih =>
    intro s k h
    rw [List.range'] at h
    by_cases hs : p s = true
    · rw [List.find?_cons_of_pos _ hs] at h
      cases h
      exact ⟨hs, le_refl _, by omega, fun j h1 h2 => absurd h1 (by omega)⟩
    · rw [List.find?_cons_of_neg _ hs] at h
      obtain ⟨h1, h2, h3, h4⟩ := ih (s + 1) h
      refine ⟨h1, by omega, by omega, ?_⟩
      intro j hj1 hj2
      rcases Nat.eq_or_lt_of_le hj1 with rfl | hj
      · exact Bool.not_eq_true _ ▸ (by simpa using hs)
      · exact h4 j (by omega) hj2

/-! ## PnL engine rows and `truncate_trades_on_stops`
(`dynamic_helper.py`, `pnl_transaction`, `_trade_leg_snapshot`,
`truncate_trades_on_stops`).  A row is one (trade_filter_id, contract id,
date) entry of the positions-with-prices table; the direction strings
accepted by `_side_sign` are abstracted to the side they map to. -/

/-- One row of the option-chains table fed to the PnL engine: index levels
`trade_filter_id` (`tid`), contract id (`cid`) and `date` (`rdate`), with
quantity, direction (`long`), entry price and current price columns. -/
structure ChainRow where
  tid : ℕ
  cid : ℕ
  rdate : ℕ
  quantity : ℚ
  long : Bool
  entryPrice : ℚ
  priceNow : ℚ
deriving DecidableEq, Repr

/-- Side sign from the direction column: +1 for long, -1 for short
(`_side_sign`). -/
def sideSign (r : ChainRow) : ℚ := if r.long then 1 else -1

/-- Leg-level pnl of one row: `leg_value - leg_cost` with
`leg_cost = side * entry_price * |quantity| * multiplier` and
`leg_value = side * price * |quantity| * multiplier` (`pnl_transaction`). -/
def rowPnl (m : ℚ) (r : ChainRow) : ℚ :=
  sideSign r * r.priceNow * |r.quantity| * m - sideSign r * r.entryPrice * |r.quantity| * m

/-- `entry_notional_abs` of one row: `|entry_price| * |quantity| * multiplier`. -/
def rowNotional (m : ℚ) (r : ChainRow) : ℚ := |r.entryPrice| * |r.quantity| * m

/-- First row of each (trade_filter_id, contract id) leg, in order of first
appearance: the `groupby([trade_filter_id, leg_key]).first()` of
`_trade_leg_snapshot` (rows carry no missing values, so `.first()` is the
first row of the group). -/
def legFirstRows (rows : List ChainRow) : List ChainRow :=
  ((rows.map (fun r => (r.tid, r.cid))).dedup).filterMap
    (fun k => rows.find? (fun r => r.tid == k.1 && r.cid == k.2))

/-- Constant per-trade entry notional: sum of `entry_notional_abs` over the
trade's legs (one row per leg), with a zero sum replaced by missing
(`.replace(0, np.nan)`). -/
def tradeEntryNotional (rows : List ChainRow) (m : ℚ) (t : ℕ) : Option ℚ :=
  let s := (((legFirstRows rows).filter (fun r => r.tid == t)).map (rowNotional m)).sum
  if s = 0 then none else some s

/-- Trade-level pnl on a date: sum of the legs' pnl over the trade's rows of
that date. -/
def tradePnl (rows : List ChainRow) (m : ℚ) (t d : ℕ) : ℚ :=
  ((rows.filter (fun r => r.tid == t && r.rdate == d)).map (rowPnl m)).sum

/-- `trade_pnl_pct`: trade pnl divided by the constant entry notional;
missing when the notional is zero (so no stop can trigger on it). -/
def tradePnlPct (rows : List ChainRow) (m : ℚ) (t d : ℕ) : Option ℚ :=
  (tradeEntryNotional rows m t).map (fun en => tradePnl rows m t d / en)

/-- The distinct dates of a trade's time series, ascending (the per-trade
group of `trade_ts`, sorted by date). -/
def tradeDatesSorted (rows : List ChainRow) (t : ℕ) : List ℕ :=
  sortByKey (fun n => n)
    ((rows.filterMap (fun r => if r.tid == t then some r.rdate else none)).dedup)

/-- Stop-loss trigger on a date: `trade_pnl_pct <= -abs(stop_loss)` (false on
a missing pct). -/
def pctLeB (rows : List ChainRow) (m : ℚ) (t : ℕ) (lim : ℚ) (d : ℕ) : Bool :=
  match tradePnlPct rows m t d with
  | some p => decide (p ≤ lim)
  | none => false

/-- Take-profit trigger on a date: `trade_pnl_pct >= abs(take_profit)`. -/
def pctGeB (rows : List ChainRow) (m : ℚ) (t : ℕ) (lim : ℚ) (d : ℕ) : Bool :=
  match tradePnlPct rows m t d with
  | some p => decide (lim ≤ p)
  | none => false

/-- Per-trade cutoff date: the first date (in ascending date order) where
the stop-loss triggers, the first where the take-profit triggers, and the
minimum of the two when both exist (`cutoffs[tid] = min(hit_dates)`). -/
def cutoffDate (rows : List ChainRow) (m : ℚ) (sl tp : Option ℚ) (t : ℕ) : Option ℕ :=
  match sl.bind (fun s => (tradeDatesSorted rows t).find? (pctLeB rows m t (-|s|))),
      tp.bind (fun s => (tradeDatesSorted rows t).find? (pctGeB rows m t |s|)) with
  | some a, some b => some (min a b)
  | some a, none => some a
  | none, some b => some b
  | none, none => none

/-- Row filter of `truncate_trades_on_stops`: keep rows whose trade has no
cutoff or whose date is at most the cutoff date
(`keep = cutoff.isna() | (dates <= cutoff)`). -/
def keepB (rows : List ChainRow) (m : ℚ) (sl tp : Option ℚ) (r : ChainRow) : Bool :=
  match cutoffDate rows m sl tp r.tid with
  | none => true
  | some c => decide (r.rdate ≤ c)

/-- `truncate_trades_on_stops`: returns the input unchanged when both
thresholds are absent, else filters the rows with `keepB`. -/
def truncateTradesOnStops (rows : List ChainRow) (m : ℚ) (sl tp : Option ℚ) :
    List ChainRow :=
  match sl, tp with
  | none, none => rows
  | _, _ => rows.filter (keepB rows m sl tp)

/-- A stop/take hit of trade `t` on date `d`, stated from the spec's wording:
the trade pnl pct (against the constant entry-date total entry notional)
is at most `-abs(stop_loss)` or at least `abs(take_profit)`. -/
def hitAt (rows : List ChainRow) (m : ℚ) (sl tp : Option ℚ) (t d : ℕ) : Prop :=
  ∃ p, tradePnlPct rows m t d = some p ∧
    ((∃ s, sl = some s ∧ p ≤ -|s|) ∨ (∃ s, tp = some s ∧ |s| ≤ p))

/-- Stop-loss component of a hit: present and triggering on this date. -/
def slTriggerB (rows : List ChainRow) (m : ℚ) (sl : Option ℚ) (t d : ℕ) : Bool :=
  match sl with
  | some s => pctLeB rows m t (-|s|) d
  | none => false

/-- Take-profit component of a hit: present and triggering on this date. -/
def tpTriggerB (rows : List ChainRow) (m : ℚ) (tp : Option ℚ) (t d : ℕ) : Bool :=
  match tp with
  | some s => pctGeB rows m t |s| d
  | none => false

/-- Boolean form of a hit, combining the two trigger predicates. -/
def hitB (rows : List ChainRow) (m : ℚ) (sl tp : Option ℚ) (t d : ℕ) : Bool :=
  slTriggerB rows m sl t d || tpTriggerB rows m tp t d

theorem bool_eq_false {b : Bool} (h : ¬ b = true) : b = false := by
  cases b <;> simp_all

theorem hitAt_iff_hitB (rows : List ChainRow) (m : ℚ) (sl tp : Option ℚ)
    (t d : ℕ) : hitAt rows m sl tp t d ↔ hitB rows m sl tp t d = true := by
  unfold hitAt hitB slTriggerB tpTriggerB pctLeB pctGeB
  cases hpc : tradePnlPct rows m t d with
  | none =>
    simp only [Bool.or_eq_true]
    constructor
    · rintro ⟨p, hp, _⟩; cases hp
    · rintro (h | h) <;> cases sl <;> cases tp <;> simp_all
  | some p =>
    simp only [Bool.or_eq_true]
    constructor
    · rintro ⟨q, hq, hcase⟩
      obtain rfl : q = p := (Option.some_inj.mp hq).symm
      rcases hcase with ⟨s, rfl, hs⟩ | ⟨s, rfl, hs⟩
      · left; simp [hs]
      · right; simp [hs]
    · rintro (h | h)
      · cases sl with
        | none => simp at h
        | some s => exact ⟨p, rfl, Or.inl ⟨s, rfl, by simpa using h⟩⟩
      · cases tp with
        | none => simp at h
        | some s => exact ⟨p, rfl, Or.inr ⟨s, rfl, by simpa using h⟩⟩

theorem slTriggerB_eq_false (rows : List ChainRow) (m : ℚ) (sl : Option ℚ)
    (t d : ℕ)
    (h1 : sl.bind (fun s => (tradeDatesSorted rows t).find? (pctLeB rows m t (-|s|))) = none)
    (hd : d ∈ tradeDatesSorted rows t) :
    slTriggerB rows m sl t d = false := by
  cases sl with
  | none => rfl
  | some s =>
    simp only [Option.some_bind] at h1
    exact bool_eq_false (List.find?_eq_none.mp h1 d hd)

theorem tpTriggerB_eq_false (rows : List ChainRow) (m : ℚ) (tp : Option ℚ)
    (t d : ℕ)
    (h2 : tp.bind (fun s => (tradeDatesSorted rows t).find? (pctGeB rows m t |s|)) = none)
    (hd : d ∈ tradeDatesSorted rows t) :
    tpTriggerB rows m tp t d = false := by
  cases tp with
  | none => rfl
  | some s =>
    simp only [Option.some_bind] at h2
    exact bool_eq_false (List.find?_eq_none.mp h2 d hd)

theorem cutoffDate_none (rows : List ChainRow) (m : ℚ) (sl tp : Option ℚ)
    (t : ℕ) (h : cutoffDate rows m sl tp t = none) :
    ∀ d ∈ tradeDatesSorted rows t, hitB rows m sl tp t d = false := by
  intro d hd
  unfold cutoffDate at h
  cases h1 : sl.bind (fun s => (tradeDatesSorted rows t).find? (pctLeB rows m t (-|s|))) with
  | some a =>
    rw [h1] at h
    cases h2 : tp.bind (fun s => (tradeDatesSorted rows t).find? (pctGeB rows m t |s|)) <;>
      rw [h2] at h <;> simp at h
  | none =>
    rw [h1] at h
    cases h2 : tp.bind (fun s => (tradeDatesSorted rows t).find? (pctGeB rows m t |s|)) with
    | some b => rw [h2] at h; simp at h
    | none =>
      unfold hitB
      rw [slTriggerB_eq_false rows m sl t d h1 hd, tpTriggerB_eq_false rows m tp t d h2 hd]
      rfl

theorem cutoffDate_some (rows : List ChainRow) (m : ℚ) (sl tp : Option ℚ)
    (t : ℕ) (c : ℕ) (h : cutoffDate rows m sl tp t = some c) :
    c ∈ tradeDatesSorted rows t ∧ hitB rows m sl tp t c = true ∧
      ∀ d ∈ tradeDatesSorted rows t, hitB rows m sl tp t d = true → c ≤ d := by
  have hsorted : (tradeDatesSorted rows t).Pairwise (fun x y => x ≤ y) := by
    have := pairwise_sortByKey (fun n : ℕ => n)
      ((rows.filterMap (fun r => if r.tid == t then some r.rdate else none)).dedup)
    simpa [tradeDatesSorted] using this
  unfold cutoffDate at h
  cases h1 : sl.bind (fun s => (tradeDatesSorted rows t).find? (pctLeB rows m t (-|s|))) with
  | some a =>
    obtain ⟨s1, hs1, hf1⟩ := Option.bind_eq_some.mp h1
    have ha_mem : a ∈ tradeDatesSorted rows t := List.mem_of_find?_eq_some hf1
    have ha_hit : pctLeB rows m t (-|s1|) a = true := List.find?_some hf1
    have ha_min : ∀ d ∈ tradeDatesSorted rows t, pctLeB rows m t (-|s1|) d = true → a ≤ d :=
      fun d hd hpd => find?_pairwise_key_min hsorted hf1 d hd hpd
    cases h2 : tp.bind (fun s => (tradeDatesSorted rows t).find? (pctGeB rows m t |s|)) with
    | some b =>
      rw [h1, h2] at h
      obtain ⟨s2, hs2, hf2⟩ := Option.bind_eq_some.mp h2
      have hb_mem : b ∈ tradeDatesSorted rows t := List.mem_of_find?_eq_some hf2
      have hb_hit : pctGeB rows m t |s2| b = true := List.find?_some hf2
      have hb_min : ∀ d ∈ tradeDatesSorted rows t, pctGeB rows m t |s2| d = true → b ≤ d :=
        fun d hd hpd => find?_pairwise_key_min hsorted hf2 d hd hpd
      have hc : c = min a b := by simpa using h.symm
      subst hc
      rcases min_cases a b with ⟨hmin, hab⟩ | ⟨hmin, hba⟩ <;> rw [hmin]
      · refine ⟨ha_mem, ?_, ?_⟩
        · unfold hitB slTriggerB; rw [hs1]; simp [ha_hit]
        · intro d hd hhit
          unfold hitB slTriggerB tpTriggerB at hhit
          rw [hs1, hs2] at hhit
          rcases Bool.or_eq_true _ _ |>.mp hhit with hx | hx
          · exact ha_min d hd hx
          · exact le_trans hab (hb_min d hd hx)
      · refine ⟨hb_mem, ?_, ?_⟩
        · unfold hitB tpTriggerB; rw [hs2]; simp [hb_hit]
        · intro d hd hhit
          unfold hitB slTriggerB tpTriggerB at hhit
          rw [hs1, hs2] at hhit
          rcases Bool.or_eq_true _ _ |>.mp hhit with hx | hx
          · exact le_trans (le_of_lt hba) (ha_min d hd hx)
          · exact hb_min d hd hx
    | none =>
      rw [h1, h2] at h
      obtain rfl : a = c := by simpa using h
      refine ⟨ha_mem, ?_, ?_⟩
      · unfold hitB slTriggerB; rw [hs1]; simp [ha_hit]
      · intro d hd hhit
        unfold hitB slTriggerB tpTriggerB at hhit
        rw [hs1] at hhit
        rcases Bool.or_eq_true _ _ |>.mp hhit with hx | hx
        · exact ha_min d hd hx
        · cases tp with
          | none => simp at hx
          | some s2 =>
            simp only [Option.some_bind] at h2
            exact absurd hx (List.find?_eq_none.mp h2 d hd)
  | none =>
    cases h2 : tp.bind (fun s => (tradeDatesSorted rows t).find? (pctGeB rows m t |s|)) with
    | some b =>
      rw [h1, h2] at h
      obtain rfl : b = c := by simpa using h
      obtain ⟨s2, hs2, hf2⟩ := Option.bind_eq_some.mp h2
      have hb_mem : b ∈ tradeDatesSorted rows t := List.mem_of_find?_eq_some hf2
      have hb_hit : pctGeB rows m t |s2| b = true := List.find?_some hf2
      have hb_min : ∀ d ∈ tradeDatesSorted rows t, pctGeB rows m t |s2| d = true → b ≤ d :=
        fun d hd hpd => find?_pairwise_key_min hsorted hf2 d hd hpd
      refine ⟨hb_mem, ?_, ?_⟩
      · unfold hitB tpTriggerB; rw [hs2]; simp [hb_hit]
      · intro d hd hhit
        unfold hitB slTriggerB tpTriggerB at hhit
        rw [hs2] at hhit
        rcases Bool.or_eq_true _ _ |>.mp hhit with hx | hx
        · cases sl with
          | none => simp at hx
          | some s1 =>
            simp only [Option.some_bind] at h1
            exact absurd hx (List.find?_eq_none.mp h1 d hd)
        · exact hb_min d hd hx
    | none =>
      rw [h1, h2] at h
      simp at h

theorem mem_tradeDatesSorted (rows : List ChainRow) (t d : ℕ) :
    d ∈ tradeDatesSorted rows t ↔ ∃ q ∈ rows, q.tid = t ∧ q.rdate = d := by
  unfold tradeDatesSorted
  rw [mem_sortByKey, List.mem_dedup, List.mem_filterMap]
  constructor
  · rintro ⟨q, hq, hqe⟩
    by_cases h : q.tid = t
    · refine ⟨q, hq, h, ?_⟩
      rw [if_pos (by simpa using h)] at hqe
      exact Option.some_inj.mp hqe
    · rw [if_neg (by simpa using h)] at hqe
      cases hqe
  · rintro ⟨q, hq, ht, hd⟩
    exact ⟨q, hq, by simp [ht, hd]⟩

theorem keepB_iff (rows : List ChainRow) (m : ℚ) (sl tp : Option ℚ)
    (r : ChainRow) :
    keepB rows m sl tp r = true ↔
      ∀ d ∈ tradeDatesSorted rows r.tid,
        hitB rows m sl tp r.tid d = true → r.rdate ≤ d := by
  unfold keepB
  cases hc : cutoffDate rows m sl tp r.tid with
  | none =>
    simp only [true_iff]
    intro d hd hhit
    exact absurd hhit (by simp [cutoffDate_none rows m sl tp r.tid hc d hd])
  | some c =>
    obtain ⟨hc_mem, hc_hit, hc_min⟩ := cutoffDate_some rows m sl tp r.tid c hc
    constructor
    · intro hkeep d hd hhit
      exact le_trans (of_decide_eq_true hkeep) (hc_min d hd hhit)
    · intro hall
      exact decide_eq_true (hall c hc_mem hc_hit)

/-- C1 (amended).  For every positions-with-prices table,
`truncate_trades_on_stops` finds, per `trade_filter_id`, the earliest date at
which `trade_pnl_pct` (computed against the constant entry-date total entry
notional) is `<= -abs(stop_loss)` or `>= abs(take_profit)`, and drops all of
that trade's rows strictly after that date: the hit date's row itself is
kept, and trades with no hit are left untouched.  Stated as a membership
characterization: a row survives iff its date is at most every hit date of
its trade. -/
theorem truncate_keeps_rows_up_to_first_hit (rows : List ChainRow) (m : ℚ)
    (sl tp : Option ℚ) (r : ChainRow) :
    r ∈ truncateTradesOnStops rows m sl tp ↔
      (r ∈ rows ∧ ∀ d, (∃ q ∈ rows, q.tid = r.tid ∧ q.rdate = d) →
        hitAt rows m sl tp r.tid d → r.rdate ≤ d) := by
  have hfilter : ∀ (hne : True), r ∈ rows.filter (keepB rows m sl tp) ↔
      (r ∈ rows ∧ ∀ d, (∃ q ∈ rows, q.tid = r.tid ∧ q.rdate = d) →
        hitAt rows m sl tp r.tid d → r.rdate ≤ d) := by
    intro _
    rw [List.mem_filter, keepB_iff]
    constructor
    · rintro ⟨hmem, hall⟩
      refine ⟨hmem, fun d hd hhit => ?_⟩
      exact hall d ((mem_tradeDatesSorted rows r.tid d).mpr hd)
        ((hitAt_iff_hitB rows m sl tp r.tid d).mp hhit)
    · rintro ⟨hmem, hall⟩
      refine ⟨hmem, fun d hd hhit => ?_⟩
      exact hall d ((mem_tradeDatesSorted rows r.tid d).mp hd)
        ((hitAt_iff_hitB rows m sl tp r.tid d).mpr hhit)
  cases sl with
  | none =>
    cases tp with
    | none =>
      show r ∈ rows ↔ _
      constructor
      · intro hmem
        refine ⟨hmem, fun d _ hhit => ?_⟩
        rcases hhit with ⟨p, _, ⟨s, hs, _⟩ | ⟨s, hs, _⟩⟩ <;> cases hs
      · exact fun h => h.1
    | some s2 => exact hfilter trivial
  | some s1 =>
    cases tp with
    | none => exact hfilter trivial
    | some s2 => exact hfilter trivial

/-- C10.  Calling `truncate_trades_on_stops` with both `stop_loss=None` and
`take_profit=None` returns the input table unchanged (the function exits
before any PnL computation, validation or filtering). -/
theorem truncate_no_stops_identity (rows : List ChainRow) (m : ℚ) :
    truncateTradesOnStops rows m none none = rows := rfl

/-- Concrete two-date trade used against claim C1: one long leg, entry price
1, quantity 1, multiplier 1, prices 9/10 then 2/5, so `trade_pnl_pct` is
-1/10 then -6/10. -/
def c1Rows : List ChainRow :=
  [⟨0, 0, 0, 1, true, 1, 9/10⟩, ⟨0, 0, 1, 1, true, 1, 2/5⟩]

/-- C1 counterexample.  With `stop_loss = 1/2` the trade's pnl pct path is
[-1/10, -3/5]: the stop hits on the second date, yet the code keeps both
rows (`dates <= cutoff` is inclusive), not just the first date as the claim
states. -/
theorem truncate_counterexample_keeps_hit_date :
    truncateTradesOnStops c1Rows 1 (some (1/2)) none = c1Rows := by
  have hds : tradeDatesSorted c1Rows 0 = [0, 1] := by
    simp [tradeDatesSorted, c1Rows, sortByKey, insertByKey, List.dedup]
  have hnot : tradeEntryNotional c1Rows 1 0 = some 1 := by
    simp [tradeEntryNotional, legFirstRows, c1Rows, rowNotional, List.dedup,
      List.find?]
  have habs : |((2 : ℚ))⁻¹| = (2 : ℚ)⁻¹ := abs_of_pos (by norm_num)
  have hp0 : tradePnlPct c1Rows 1 0 0 = some (-(1/10)) := by
    rw [tradePnlPct, hnot]
    simp only [Option.map_some', Option.some.injEq]
    simp [tradePnl, c1Rows, rowPnl, sideSign]
    norm_num
  have hp1 : tradePnlPct c1Rows 1 0 1 = some (-(3/5)) := by
    rw [tradePnlPct, hnot]
    simp only [Option.map_some', Option.some.injEq]
    simp [tradePnl, c1Rows, rowPnl, sideSign]
    norm_num
  have hle0 : pctLeB c1Rows 1 0 (-|(1 : ℚ)/2|) 0 = false := by
    simp [pctLeB, hp0]
    rw [habs]
    norm_num
  have hle1 : pctLeB c1Rows 1 0 (-|(1 : ℚ)/2|) 1 = true := by
    simp [pctLeB, hp1]
    rw [habs]
    norm_num
  have hcut : cutoffDate c1Rows 1 (some (1/2)) none 0 = some 1 := by
    unfold cutoffDate
    rw [hds]
    simp only [Option.some_bind, Option.none_bind, List.find?, hle0, hle1]
  have hkeep : ∀ r ∈ c1Rows, keepB c1Rows 1 (some (1/2)) none r = true := by
    intro r hr
    rcases List.mem_cons.mp hr with rfl | hr
    · simp only [keepB, hcut]
      simp
    · rcases List.mem_cons.mp hr with rfl | hr
      · simp only [keepB, hcut]
        simp
      · cases hr
  show c1Rows.filter (keepB c1Rows 1 (some (1/2)) none) = c1Rows
  rw [List.filter_eq_self.mpr hkeep]

/-! ## Contract selector (`select_option_contracts_batch`)
One row of the option chain carries the columns the selector touches; a
`none` field is a float `NaN` cell.  A request carries both target columns
(the code's missing-column errors are outside this model).  The pipeline is
split into named stages exactly in the order of the source's filters and
early returns. -/

/-- One option-chain row as seen by the selector: contract id, ticker, date,
option type, days till expiration, the chosen price column, pct_from_strike,
strike, bid, ask, volume and open_interest. -/
structure OptRow where
  oid : ℕ
  ticker : ℕ
  odate : ℕ
  optType : String
  dte : Option ℚ
  price : Option ℚ
  pfs : Option ℚ
  strike : Option ℚ
  bid : Option ℚ
  ask : Option ℚ
  volume : Option ℚ
  oi : Option ℚ
deriving DecidableEq, Repr

/-- One selection request: trade_filter_id, (ticker, date) key, the two
possible targets and the DTE target. -/
structure SelReq where
  tid : ℕ
  ticker : ℕ
  rdate : ℕ
  pctTarget : ℚ
  priceTarget : ℚ
  dteTarget : ℚ
deriving DecidableEq, Repr

/-- A candidate: an option row joined to a request on (ticker, date). -/
abbrev Cand := OptRow × SelReq

/-- Stage 1: keep chain rows of the requested option type whose (ticker,
date) appears among the requests. -/
def optTypeTickerDateFilter (options : List OptRow) (reqs : List SelReq)
    (optType : String) : List OptRow :=
  options.filter (fun o => o.optType == optType
    && (reqs.map (fun q => q.ticker)).contains o.ticker
    && (reqs.map (fun q => q.rdate)).contains o.odate)

/-- Stage 2: inner join of the filtered chain rows with the requests on
(ticker, date). -/
def joinCands (options : List OptRow) (reqs : List SelReq) (optType : String) :
    List Cand :=
  (optTypeTickerDateFilter options reqs optType).flatMap
    (fun o => reqs.filterMap (fun q =>
      if o.ticker == q.ticker && o.odate == q.rdate then some (o, q) else none))

/-- DTE validity: `days_till_expiration` parses and is nonnegative. -/
def dteOkB (c : Cand) : Bool :=
  match c.1.dte with
  | some d => decide (0 ≤ d)
  | none => false

/-- Optional open-interest floor. -/
def oiOkB (minOI : Option ℚ) (c : Cand) : Bool :=
  match minOI with
  | none => true
  | some mo =>
    match c.1.oi with
    | some v => decide (mo ≤ v)
    | none => false

/-- Optional volume floor. -/
def volOkB (minVol : Option ℚ) (c : Cand) : Bool :=
  match minVol with
  | none => true
  | some mv =>
    match c.1.volume with
    | some v => decide (mv ≤ v)
    | none => false

/-- Optional quote sanity: bid and ask present, nonnegative, ask at least
bid. -/
def quoteOkB (rq : Bool) (c : Cand) : Bool :=
  !rq || (match c.1.bid, c.1.ask with
    | some b, some a => decide (0 ≤ b) && decide (0 ≤ a) && decide (b ≤ a)
    | _, _ => false)

/-- Per-trade exclusion: the mapped excluded contract id, when present for
this trade, must differ from the candidate's id. -/
def exclOkB (excl : Option (List (ℕ × ℕ))) (c : Cand) : Bool :=
  match excl with
  | none => true
  | some l =>
    match l.find? (fun p => p.1 == c.2.tid) with
    | none => true
    | some p => c.1.oid != p.2

/-- Stages 3-5: candidates surviving the DTE-validity, liquidity and quote
filters (the set the nearest-DTE minimum is taken over, before exclusions). -/
def preDTE (options : List OptRow) (reqs : List SelReq) (optType : String)
    (minOI minVol : Option ℚ) (rq : Bool) : List Cand :=
  ((((joinCands options reqs optType).filter dteOkB).filter (oiOkB minOI)).filter
    (volOkB minVol)).filter (quoteOkB rq)

/-- Stage 6: exclusions applied. -/
def postExcl (options : List OptRow) (reqs : List SelReq) (optType : String)
    (excl : Option (List (ℕ × ℕ))) (minOI minVol : Option ℚ) (rq : Bool) :
    List Cand :=
  (preDTE options reqs optType minOI minVol rq).filter (exclOkB excl)

/-- Distance from the DTE target (total on candidates that passed `dteOkB`). -/
def dteDistQ (c : Cand) : ℚ :=
  match c.1.dte with
  | some d => |d - c.2.dteTarget|
  | none => 0

/-- Stage 7: nearest-DTE filter, keeping per trade only the candidates whose
DTE distance equals the per-trade minimum (`dte_dist == transform("min")`). -/
def postDTEmin (options : List OptRow) (reqs : List SelReq) (optType : String)
    (excl : Option (List (ℕ × ℕ))) (minOI minVol : Option ℚ) (rq : Bool) :
    List Cand :=
  (postExcl options reqs optType excl minOI minVol rq).filter (fun c =>
    (postExcl options reqs optType excl minOI minVol rq).all (fun c2 =>
      c2.2.tid != c.2.tid || decide (dteDistQ c ≤ dteDistQ c2)))

/-- Target distance: `|pct_from_strike - pct_target|` for kind `pct`,
`|price - price_target|` for kind `price`; missing on a missing input. -/
def distOf (tk : String) (c : Cand) : Option ℚ :=
  if tk == "pct" then c.1.pfs.map (fun v => |v - c.2.pctTarget|)
  else if tk == "price" then c.1.price.map (fun v => |v - c.2.priceTarget|)
  else none

/-- Stage 8: candidates with a finite target distance. -/
def finalCands (tk : String) (options : List OptRow) (reqs : List SelReq)
    (optType : String) (excl : Option (List (ℕ × ℕ)))
    (minOI minVol : Option ℚ) (rq : Bool) : List Cand :=
  (postDTEmin options reqs optType excl minOI minVol rq).filter
    (fun c => (distOf tk c).isSome)

/-- Ascending sort key of an optional column, missing values last
(pandas `na_position="last"`). -/
def optKeyAsc (x : Option ℚ) : Bool ×ₗ ℚ :=
  match x with
  | some v => toLex (false, v)
  | none => toLex (true, 0)

/-- Descending sort key of an optional column, missing values last. -/
def optKeyDesc (x : Option ℚ) : Bool ×ₗ ℚ :=
  match x with
  | some v => toLex (false, -v)
  | none => toLex (true, 0)

/-- Bid/ask spread column added before the sort: `|ask - bid|` when both
quotes are present. -/
def spreadOf (c : Cand) : Option ℚ :=
  match c.1.bid, c.1.ask with
  | some b, some a => some |a - b|
  | _, _ => none

/-- The composite sort key of the deterministic tie-break sort: trade id,
then distance ascending, spread ascending, open interest descending, volume
descending, contract id ascending. -/
abbrev SelKey :=
  ℕ ×ₗ (ℚ ×ₗ ((Bool ×ₗ ℚ) ×ₗ ((Bool ×ₗ ℚ) ×ₗ ((Bool ×ₗ ℚ) ×ₗ ℕ))))

/-- Sort key of one candidate. -/
def sortKeyOf (tk : String) (c : Cand) : SelKey :=
  toLex (c.2.tid, toLex ((distOf tk c).getD 0, toLex (optKeyAsc (spreadOf c),
    toLex (optKeyDesc c.1.oi, toLex (optKeyDesc c.1.volume, c.1.oid)))))

/-- One selected row: the canonical output columns of the selector. -/
structure SelRow where
  tid : ℕ
  ticker : ℕ
  sdate : ℕ
  oid : ℕ
  dte : ℚ
  price : Option ℚ
  pfs : Option ℚ
  strike : Option ℚ
deriving DecidableEq, Repr

/-- First present value of an optional column (pandas `groupby.first()`
skips missing values within each group). -/
def firstSome (l : List (Option ℚ)) : Option ℚ :=
  (l.filterMap (fun x => x)).head?

/-- Sort then take the first row per trade id (`sort_values` + `groupby
.first()`): the non-optional columns come from the group's first row, each
optional column from its first present value in the group. -/
def selOut (tk : String) (cand : List Cand) : List SelRow :=
  let s := sortByKey (sortKeyOf tk) cand
  ((s.map (fun c => c.2.tid)).dedup).filterMap (fun t =>
    (s.find? (fun c => c.2.tid == t)).map (fun h =>
      ⟨t, h.1.ticker, h.1.odate, h.1.oid, h.1.dte.getD 0,
        firstSome ((s.filter (fun c => c.2.tid == t)).map (fun c => c.1.price)),
        firstSome ((s.filter (fun c => c.2.tid == t)).map (fun c => c.1.pfs)),
        firstSome ((s.filter (fun c => c.2.tid == t)).map (fun c => c.1.strike))⟩))

/-- The selector's configuration error. -/
inductive SelErr where
  | badTargetKind
deriving DecidableEq, Repr

/-- `select_option_contracts_batch`: the early returns, filter stages,
target-kind dispatch and the final sorted group-first, in source order. -/
def selectBatch (options : List OptRow) (reqs : List SelReq) (optType : String)
    (tk : String) (excl : Option (List (ℕ × ℕ))) (minOI minVol : Option ℚ)
    (rq : Bool) : Except SelErr (List SelRow) :=
  if options.isEmpty || reqs.isEmpty then .ok []
  else if (optTypeTickerDateFilter options reqs optType).isEmpty then .ok []
  else if (joinCands options reqs optType).isEmpty then .ok []
  else if (preDTE options reqs optType minOI minVol rq).isEmpty then .ok []
  else if (postExcl options reqs optType excl minOI minVol rq).isEmpty then .ok []
  else if (postDTEmin options reqs optType excl minOI minVol rq).isEmpty then .ok []
  else if tk == "pct" || tk == "price" then
    if (finalCands tk options reqs optType excl minOI minVol rq).isEmpty then .ok []
    else .ok (selOut tk (finalCands tk options reqs optType excl minOI minVol rq))
  else .error .badTargetKind


theorem selOut_spec (tk : String) (cand : List Cand) (r : SelRow)
    (hr : r ∈ selOut tk cand) :
    ∃ c ∈ cand, c.2.tid = r.tid ∧ c.1.oid = r.oid ∧ c.1.dte.getD 0 = r.dte ∧
      ∀ c2 ∈ cand, c2.2.tid = r.tid → sortKeyOf tk c ≤ sortKeyOf tk c2 := by
  unfold selOut at hr
  rw [List.mem_filterMap] at hr
  obtain ⟨t, ht, hmap⟩ := hr
  obtain ⟨h, hfind, hbuild⟩ := Option.map_eq_some'.mp hmap
  have hmem_s : h ∈ sortByKey (sortKeyOf tk) cand := List.mem_of_find?_eq_some hfind
  have hmem : h ∈ cand := (mem_sortByKey _ _ _).mp hmem_s
  have htid : h.2.tid = t := by simpa using List.find?_some hfind
  refine ⟨h, hmem, ?_, ?_, ?_, ?_⟩
  · rw [htid, ← hbuild]
  · rw [← hbuild]
  · rw [← hbuild]
  · intro c2 hc2 hc2tid
    have hc2s : c2 ∈ sortByKey (sortKeyOf tk) cand := (mem_sortByKey _ _ _).mpr hc2
    have hp : (c2.2.tid == t) = true := by
      rw [← hbuild] at hc2tid
      simpa using hc2tid
    exact find?_pairwise_key_min (pairwise_sortByKey (sortKeyOf tk) cand) hfind c2 hc2s hp

theorem preDTE_dte (options : List OptRow) (reqs : List SelReq)
    (optType : String) (minOI minVol : Option ℚ) (rq : Bool) (c : Cand)
    (hc : c ∈ preDTE options reqs optType minOI minVol rq) :
    ∃ d, c.1.dte = some d ∧ 0 ≤ d := by
  unfold preDTE at hc
  have h1 := (List.mem_filter.mp hc).1
  have h2 := (List.mem_filter.mp h1).1
  have h3 := (List.mem_filter.mp h2).1
  have h4 := (List.mem_filter.mp h3).2
  unfold dteOkB at h4
  cases hd : c.1.dte with
  | none => rw [hd] at h4; cases h4
  | some d =>
    rw [hd] at h4
    exact ⟨d, rfl, of_decide_eq_true h4⟩

/-- C2 (confirmed).  Every row of a successful `select_option_contracts_batch`
result is backed by a surviving candidate of its trade whose DTE distance is
minimal among all candidates of that trade surviving the
option-type/(ticker,date)/DTE-validity/liquidity/quote/exclusion filters, and
which is minimal in the deterministic tie-break order (distance, then spread,
then open interest descending, volume descending, contract id ascending);
selection is a pure function of the inputs, hence re-running is identical. -/
theorem selectBatch_selects_nearest (options : List OptRow) (reqs : List SelReq)
    (optType tk : String) (excl : Option (List (ℕ × ℕ)))
    (minOI minVol : Option ℚ) (rq : Bool) (out : List SelRow) (r : SelRow)
    (h : selectBatch options reqs optType tk excl minOI minVol rq = .ok out)
    (hr : r ∈ out) :
    ∃ c ∈ finalCands tk options reqs optType excl minOI minVol rq,
      c.2.tid = r.tid ∧ c.1.oid = r.oid ∧ c.1.dte = some r.dte ∧
      (∀ c2 ∈ postExcl options reqs optType excl minOI minVol rq,
        c2.2.tid = r.tid → dteDistQ c ≤ dteDistQ c2) ∧
      (∀ c2 ∈ finalCands tk options reqs optType excl minOI minVol rq,
        c2.2.tid = r.tid → sortKeyOf tk c ≤ sortKeyOf tk c2) := by
  unfold selectBatch at h
  split_ifs at h with h1 h2 h3 h4 h5 h6 h7 h8
  · obtain rfl : [] = out := by simpa using h
    cases hr
  · obtain rfl : [] = out := by simpa using h
    cases hr
  · obtain rfl : [] = out := by simpa using h
    cases hr
  · obtain rfl : [] = out := by simpa using h
    cases hr
  · obtain rfl : [] = out := by simpa using h
    cases hr
  · obtain rfl : [] = out := by simpa using h
    cases hr
  · obtain rfl : [] = out := by simpa using h
    cases hr
  · obtain rfl : selOut tk (finalCands tk options reqs optType excl minOI minVol rq) = out := by
      simpa using h
    obtain ⟨c, hcf, hctid, hcoid, hcdte, hcmin⟩ := selOut_spec tk _ r hr
    have hc_postmin : c ∈ postDTEmin options reqs optType excl minOI minVol rq :=
      (List.mem_filter.mp hcf).1
    have hc_postexcl : c ∈ postExcl options reqs optType excl minOI minVol rq :=
      (List.mem_filter.mp hc_postmin).1
    have hc_pre : c ∈ preDTE options reqs optType minOI minVol rq :=
      (List.mem_filter.mp hc_postexcl).1
    obtain ⟨d, hd, _⟩ := preDTE_dte options reqs optType minOI minVol rq c hc_pre
    have hall := (List.mem_filter.mp hc_postmin).2
    refine ⟨c, hcf, hctid, hcoid, ?_, ?_, hcmin⟩
    · rw [hd, ← hcdte, hd]
      rfl
    · intro c2 hc2 hc2tid
      have := List.all_eq_true.mp hall c2 hc2
      rcases Bool.or_eq_true _ _ |>.mp this with hx | hx
      · exact absurd (hctid.trans hc2tid.symm).symm (by simpa using hx)
      · exact of_decide_eq_true hx

theorem optTypeTickerDateFilter_nil_right (options : List OptRow)
    (optType : String) :
    optTypeTickerDateFilter options [] optType = [] := by
  apply List.filter_eq_nil_iff.mpr
  intro o ho
  simp [optTypeTickerDateFilter]

theorem postDTEmin_nil_of_filter_nil (options : List OptRow)
    (reqs : List SelReq) (optType : String) (excl : Option (List (ℕ × ℕ)))
    (minOI minVol : Option ℚ) (rq : Bool)
    (h : optTypeTickerDateFilter options reqs optType = []) :
    postDTEmin options reqs optType excl minOI minVol rq = [] := by
  unfold postDTEmin postExcl preDTE joinCands
  rw [h]
  rfl

theorem postDTEmin_nil_of_join_nil (options : List OptRow)
    (reqs : List SelReq) (optType : String) (excl : Option (List (ℕ × ℕ)))
    (minOI minVol : Option ℚ) (rq : Bool)
    (h : joinCands options reqs optType = []) :
    postDTEmin options reqs optType excl minOI minVol rq = [] := by
  unfold postDTEmin postExcl preDTE
  rw [h]
  rfl

theorem postDTEmin_nil_of_preDTE_nil (options : List OptRow)
    (reqs : List SelReq) (optType : String) (excl : Option (List (ℕ × ℕ)))
    (minOI minVol : Option ℚ) (rq : Bool)
    (h : preDTE options reqs optType minOI minVol rq = []) :
    postDTEmin options reqs optType excl minOI minVol rq = [] := by
  unfold postDTEmin postExcl
  rw [h]
  rfl

theorem postDTEmin_nil_of_postExcl_nil (options : List OptRow)
    (reqs : List SelReq) (optType : String) (excl : Option (List (ℕ × ℕ)))
    (minOI minVol : Option ℚ) (rq : Bool)
    (h : postExcl options reqs optType excl minOI minVol rq = []) :
    postDTEmin options reqs optType excl minOI minVol rq = [] := by
  unfold postDTEmin
  rw [h]
  rfl

/-- C8 (amended).  With a target kind other than `pct` or `price`, the
selector raises the configuration error exactly when candidates survive to
the target-distance step; on an empty chain, empty request table, or when
every candidate is filtered out earlier, it returns an empty result without
raising, because the early returns fire before the target-kind dispatch. -/
theorem selectBatch_invalid_kind (options : List OptRow) (reqs : List SelReq)
    (optType tk : String) (excl : Option (List (ℕ × ℕ)))
    (minOI minVol : Option ℚ) (rq : Bool)
    (hk1 : tk ≠ "pct") (hk2 : tk ≠ "price") :
    selectBatch options reqs optType tk excl minOI minVol rq =
      (if (postDTEmin options reqs optType excl minOI minVol rq).isEmpty
       then Except.ok []
       else Except.error SelErr.badTargetKind) := by
  by_cases hF : (postDTEmin options reqs optType excl minOI minVol rq).isEmpty = true
  · rw [if_pos hF]
    unfold selectBatch
    split_ifs with a1 a2 a3 a4 a5 a6 a7 a8 <;>
      first
        | rfl
        | exact absurd hF (by assumption)
  · rw [if_neg hF]
    unfold selectBatch
    split_ifs with a1 a2 a3 a4 a5 a6 a7 a8
    · exfalso
      apply hF
      rw [List.isEmpty_iff]
      rcases Bool.or_eq_true _ _ |>.mp a1 with hx | hx
      · have ho0 : options = [] := List.isEmpty_iff.mp hx
        subst ho0
        apply postDTEmin_nil_of_filter_nil
        rfl
      · have hr0 : reqs = [] := List.isEmpty_iff.mp hx
        subst hr0
        exact postDTEmin_nil_of_filter_nil options [] optType excl minOI minVol rq
          (optTypeTickerDateFilter_nil_right options optType)
    · exact absurd (List.isEmpty_iff.mpr (postDTEmin_nil_of_filter_nil options reqs
        optType excl minOI minVol rq (List.isEmpty_iff.mp a2))) hF
    · exact absurd (List.isEmpty_iff.mpr (postDTEmin_nil_of_join_nil options reqs
        optType excl minOI minVol rq (List.isEmpty_iff.mp a3))) hF
    · exact absurd (List.isEmpty_iff.mpr (postDTEmin_nil_of_preDTE_nil options reqs
        optType excl minOI minVol rq (List.isEmpty_iff.mp a4))) hF
    · exact absurd (List.isEmpty_iff.mpr (postDTEmin_nil_of_postExcl_nil options reqs
        optType excl minOI minVol rq (List.isEmpty_iff.mp a5))) hF
    · rcases Bool.or_eq_true _ _ |>.mp a6 with hx | hx
      · exact absurd (by simpa using hx) hk1
      · exact absurd (by simpa using hx) hk2
    · rcases Bool.or_eq_true _ _ |>.mp a6 with hx | hx
      · exact absurd (by simpa using hx) hk1
      · exact absurd (by simpa using hx) hk2
    · rfl

/-- C8 counterexample.  On empty inputs and the invalid target kind
`"bogus"`, the selector returns an empty result instead of raising: the
claim's "raised immediately regardless of the contents, including empty
tables" is false on the code. -/
theorem selectBatch_empty_bad_kind_no_error :
    selectBatch [] [] "C" "bogus" none none none false = .ok [] := rfl


/-! ## Strategy builders (`dynamic_helper_strats_pack.py`)
The debit-spread builders `find_bull_call_debit_spread_ids` and
`find_bear_put_debit_spread_ids` share the same pipeline and differ only in
the option type and the direction of the strike-order sanity check, so both
are embedded as instances of one core. -/

/-- One episode row of the trade-filter table, as the builders consume it:
ticker and `episode_end_date`. -/
structure EpisodeReq where
  ticker : ℕ
  edate : ℕ
deriving DecidableEq, Repr

/-- `_base_req` + the per-leg targets of `_select_pct`: one request per
episode with `trade_filter_id = arange(len)`; the unused price target column
is carried as 0 (`target_kind="pct"` never reads it). -/
def baseReq (tf : List EpisodeReq) (pct dteT : ℚ) : List SelReq :=
  tf.enum.map (fun ie => ⟨ie.1, ie.2.ticker, ie.2.edate, pct, 0, dteT⟩)

/-- Unwraps a selector result; with the literal target kinds `"pct"` and
`"price"` the dispatch never reaches the error arm, so the error case is
dead. -/
def okRows : Except SelErr (List SelRow) → List SelRow
  | .ok l => l
  | .error _ => []

/-- `_select_pct`: one selector call with `target_kind="pct"` and no optional
liquidity or quote filters. -/
def selectPct (options : List OptRow) (tf : List EpisodeReq) (otype : String)
    (pct dteT : ℚ) (excl : Option (List (ℕ × ℕ))) : List SelRow :=
  okRows (selectBatch options (baseReq tf pct dteT) otype "pct" excl none none false)

/-- One row of a builder's Position table: index (id, date, trade_filter_id)
with ticker, quantity and direction columns. -/
structure PosRow where
  oid : ℕ
  pdate : ℕ
  tid : ℕ
  ticker : ℕ
  quantity : ℤ
  direction : String
deriving DecidableEq, Repr

/-- `_pos_from_sel`: one position row per selected leg row. -/
def posFromSel (sel : List SelRow) (qty : ℤ) (dir : String) : List PosRow :=
  sel.map (fun s => ⟨s.oid, s.sdate, s.tid, s.ticker, qty, dir⟩)

/-- Key of the final `sort_index()` on (id, date, trade_filter_id). -/
def sortPosKey (p : PosRow) : ℕ ×ₗ (ℕ ×ₗ ℕ) :=
  toLex (p.oid, toLex (p.pdate, p.tid))

/-- Final index sort of the Position table. -/
def sortPositions (l : List PosRow) : List PosRow := sortByKey sortPosKey l

/-- `_valid_intersection` for two legs: the trade ids present in both
selections, in the first selection's order. -/
def validTids (a b : List SelRow) : List ℕ :=
  a.filterMap (fun l => if b.any (fun s => s.tid == l.tid) then some l.tid else none)

/-- `.loc[valid]`: the rows of `sel` at the given trade ids. -/
def selByTids (sel : List SelRow) (tids : List ℕ) : List SelRow :=
  tids.filterMap (fun t => sel.find? (fun s => s.tid == t))

/-- `_check_price_gt`: trade ids where `a`'s price is not strictly above
`b`'s.  A missing price on either side compares false in pandas, so such
trades are NOT flagged. -/
def checkPriceGtBad (a b : List SelRow) : List ℕ :=
  a.filterMap (fun l =>
    match b.find? (fun s => s.tid == l.tid) with
    | some s =>
      match l.price, s.price with
      | some lp, some sp => if lp ≤ sp then some l.tid else none
      | _, _ => none
    | none => none)

/-- `_check_strike_order(low, high, "gt")`: trade ids violating
`low.strike > high.strike`.  A missing strike makes the comparison false and
its negation true, so such trades ARE flagged. -/
def checkStrikeGtBad (low high : List SelRow) : List ℕ :=
  low.filterMap (fun a =>
    match high.find? (fun s => s.tid == a.tid) with
    | some hrow =>
      match a.strike, hrow.strike with
      | some x, some y => if ¬ (y < x) then some a.tid else none
      | _, _ => some a.tid
    | none => none)

/-- Shared pipeline of the two debit-spread builders: select the long leg,
select the short leg excluding the long leg's contract per trade, intersect
the trade ids, flag trades failing the debit price check or the strike-order
check (short strike above long for the call vertical, long above short for
the put vertical), drop flagged trades from both legs, and emit +1 long /
-1 short position rows sorted by (id, date, trade_filter_id). -/
def debitSpreadCore (tf : List EpisodeReq) (options : List OptRow)
    (otype : String) (pctLong pctShort dteT : ℚ) (shortStrikeHigh : Bool) :
    List PosRow :=
  if tf.isEmpty then []
  else
    let longSel := selectPct options tf otype pctLong dteT none
    if longSel.isEmpty then []
    else
      let exIds := longSel.map (fun s => (s.tid, s.oid))
      let shortSel := selectPct options tf otype pctShort dteT (some exIds)
      if shortSel.isEmpty then []
      else
        let valid := validTids longSel shortSel
        if valid.isEmpty then []
        else
          let longV := selByTids longSel valid
          let shortV := selByTids shortSel valid
          let bad := checkPriceGtBad longV shortV ++
            (if shortStrikeHigh then checkStrikeGtBad shortV longV
             else checkStrikeGtBad longV shortV)
          let longF := longV.filter (fun s => !(bad.contains s.tid))
          let shortF := shortV.filter (fun s => !(bad.contains s.tid))
          if longF.isEmpty || shortF.isEmpty then []
          else sortPositions (posFromSel longF 1 "L" ++ posFromSel shortF (-1) "S")

/-- `find_bull_call_debit_spread_ids`: call vertical, short strike above
long. -/
def findBullCallDebitSpread (tf : List EpisodeReq) (options : List OptRow)
    (pctLongCall pctShortCall dteT : ℚ) : List PosRow :=
  debitSpreadCore tf options "C" pctLongCall pctShortCall dteT true

/-- `find_bear_put_debit_spread_ids`: put vertical, long strike above
short. -/
def findBearPutDebitSpread (tf : List EpisodeReq) (options : List OptRow)
    (pctLongPut pctShortPut dteT : ℚ) : List PosRow :=
  debitSpreadCore tf options "P" pctLongPut pctShortPut dteT false

theorem mem_selByTids {sel : List SelRow} {tids : List ℕ} {x : SelRow}
    (hx : x ∈ selByTids sel tids) : x ∈ sel ∧ x.tid ∈ tids := by
  unfold selByTids at hx
  rw [List.mem_filterMap] at hx
  obtain ⟨t, ht, hfind⟩ := hx
  have hmem := List.mem_of_find?_eq_some hfind
  have htid : x.tid = t := by simpa using List.find?_some hfind
  exact ⟨hmem, htid ▸ ht⟩

theorem find?_selByTids_isSome {sel : List SelRow} {tids : List ℕ} {t : ℕ}
    (ht : t ∈ tids) {x : SelRow} (hx : sel.find? (fun s => s.tid == t) = some x) :
    ∃ y ∈ selByTids sel tids, y.tid = t := by
  refine ⟨x, ?_, by simpa using List.find?_some hx⟩
  unfold selByTids
  rw [List.mem_filterMap]
  exact ⟨t, ht, hx⟩


theorem find?_mem_selByTids {sel : List SelRow} {tids : List ℕ} {t : ℕ}
    {x : SelRow} (ht : t ∈ tids)
    (hx : sel.find? (fun s => s.tid == t) = some x) : x ∈ selByTids sel tids := by
  unfold selByTids
  rw [List.mem_filterMap]
  exact ⟨t, ht, hx⟩

theorem debitSpread_matched_pair (LS SS : List SelRow) (t : ℕ)
    (htV : t ∈ validTids LS SS)
    (hnb : (checkPriceGtBad (selByTids LS (validTids LS SS))
      (selByTids SS (validTids LS SS))).contains t = false) :
    ∃ l s : SelRow, l ∈ LS ∧ s ∈ SS ∧ l.tid = t ∧ s.tid = t ∧
      ∀ lp sp, l.price = some lp → s.price = some sp → sp < lp := by
  have htV0 := htV
  unfold validTids at htV0
  rw [List.mem_filterMap] at htV0
  obtain ⟨l0, hl0, hl0v⟩ := htV0
  by_cases hany : SS.any (fun s => s.tid == l0.tid) = true
  case neg => rw [if_neg hany] at hl0v; cases hl0v
  rw [if_pos hany] at hl0v
  have hl0t : l0.tid = t := by simpa using hl0v
  obtain ⟨s0, hs0, hs0p⟩ := List.any_eq_true.mp hany
  have hs0t : s0.tid = t := by rw [hl0t] at hs0p; simpa using hs0p
  obtain ⟨l1, hl1⟩ := Option.isSome_iff_exists.mp (by
    rw [List.find?_isSome]
    exact ⟨l0, hl0, by simp [hl0t]⟩ :
    (LS.find? (fun s => s.tid == t)).isSome)
  have hl1LV : l1 ∈ selByTids LS (validTids LS SS) := find?_mem_selByTids htV hl1
  have hl1mem : l1 ∈ LS := List.mem_of_find?_eq_some hl1
  have hl1t : l1.tid = t := by simpa using List.find?_some hl1
  obtain ⟨s1, hs1⟩ := Option.isSome_iff_exists.mp (by
    rw [List.find?_isSome]
    exact ⟨s0, hs0, by simp [hs0t]⟩ :
    (SS.find? (fun s => s.tid == t)).isSome)
  have hs1SV : s1 ∈ selByTids SS (validTids LS SS) := find?_mem_selByTids htV hs1
  obtain ⟨s2, hs2⟩ := Option.isSome_iff_exists.mp (by
    rw [List.find?_isSome]
    exact ⟨s1, hs1SV, by simp [show s1.tid = t from by simpa using List.find?_some hs1]⟩ :
    ((selByTids SS (validTids LS SS)).find? (fun s => s.tid == t)).isSome)
  have hs2SV : s2 ∈ selByTids SS (validTids LS SS) := List.mem_of_find?_eq_some hs2
  have hs2mem : s2 ∈ SS := (mem_selByTids hs2SV).1
  have hs2t : s2.tid = t := by simpa using List.find?_some hs2
  refine ⟨l1, s2, hl1mem, hs2mem, hl1t, hs2t, ?_⟩
  intro lp sp hlp hsp
  by_contra hcon
  have hle : lp ≤ sp := le_of_not_lt hcon
  have hbadmem : t ∈ checkPriceGtBad (selByTids LS (validTids LS SS))
      (selByTids SS (validTids LS SS)) := by
    unfold checkPriceGtBad
    rw [List.mem_filterMap]
    refine ⟨l1, hl1LV, ?_⟩
    simp only [hl1t]
    rw [hs2]
    simp [hlp, hsp, hle]
  rw [List.contains_eq_any_beq] at hnb
  exact absurd (by simp : (t == t) = true)
    (List.any_eq_false.mp hnb t hbadmem)

theorem debitSpreadCore_output_tids (tf : List EpisodeReq)
    (options : List OptRow) (otype : String) (pctLong pctShort dteT : ℚ)
    (ssh : Bool) (p : PosRow)
    (hp : p ∈ debitSpreadCore tf options otype pctLong pctShort dteT ssh) :
    (p.tid ∈ validTids (selectPct options tf otype pctLong dteT none)
        (selectPct options tf otype pctShort dteT
          (some ((selectPct options tf otype pctLong dteT none).map
            (fun x => (x.tid, x.oid))))) ∧
      (checkPriceGtBad
        (selByTids (selectPct options tf otype pctLong dteT none)
          (validTids (selectPct options tf otype pctLong dteT none)
            (selectPct options tf otype pctShort dteT
              (some ((selectPct options tf otype pctLong dteT none).map
                (fun x => (x.tid, x.oid)))))))
        (selByTids (selectPct options tf otype pctShort dteT
            (some ((selectPct options tf otype pctLong dteT none).map
              (fun x => (x.tid, x.oid)))))
          (validTids (selectPct options tf otype pctLong dteT none)
            (selectPct options tf otype pctShort dteT
              (some ((selectPct options tf otype pctLong dteT none).map
                (fun x => (x.tid, x.oid)))))))).contains p.tid = false) ∧
      ((p.quantity = 1 ∧ p.direction = "L") ∨
        (p.quantity = -1 ∧ p.direction = "S")) := by
  simp only [debitSpreadCore, sortPositions, posFromSel] at hp
  split_ifs at hp <;> try cases hp
  all_goals
    rw [mem_sortByKey] at hp
  all_goals
    rcases List.mem_append.mp hp with hx0 | hx0 <;>
      [rw [List.mem_map] at hx0; rw [List.mem_map] at hx0] <;>
      obtain ⟨x, hx, hbuild⟩ := hx0 <;>
      rw [List.mem_filter] at hx <;>
      obtain ⟨hxV, hxgood⟩ := hx <;>
      have htid : p.tid = x.tid := by rw [← hbuild]
  all_goals
    have hxtV := (mem_selByTids hxV).2
  all_goals
    rw [Bool.not_eq_true'] at hxgood
  all_goals
    rw [List.contains_eq_any_beq, List.any_append] at hxgood
  all_goals
    rcases Bool.or_eq_false_iff.mp hxgood with ⟨ha, _⟩
  all_goals
    refine ⟨⟨by rw [htid]; exact hxtV, ?_⟩, ?_⟩
  all_goals
    first
      | (rw [htid, List.contains_eq_any_beq]; exact ha)
      | (left; refine ⟨?_, ?_⟩ <;> (rw [← hbuild]; done))
      | (right; refine ⟨?_, ?_⟩ <;> (rw [← hbuild]; done))

/-- C5 (amended).  Every trade id present in the output of a debit-spread
builder (bull call, bear put: both instances of `debitSpreadCore`) has its
long and short legs selected, and whenever both legs carry a price in the
chosen price column the long leg's price is strictly greater than the short
leg's; a trade with comparable prices violating this is removed entirely.
(The original claim fails when a leg's price is missing: pandas compares
`NaN` as false, so such trades are kept without satisfying long > short.) -/
theorem debitSpread_price_invariant (tf : List EpisodeReq)
    (options : List OptRow) (otype : String) (pctLong pctShort dteT : ℚ)
    (ssh : Bool) (p : PosRow)
    (hp : p ∈ debitSpreadCore tf options otype pctLong pctShort dteT ssh) :
    ∃ l s : SelRow,
      l ∈ selectPct options tf otype pctLong dteT none ∧
      s ∈ selectPct options tf otype pctShort dteT
        (some ((selectPct options tf otype pctLong dteT none).map
          (fun x => (x.tid, x.oid)))) ∧
      l.tid = p.tid ∧ s.tid = p.tid ∧
      ∀ lp sp, l.price = some lp → s.price = some sp → sp < lp := by
  obtain ⟨⟨htV, hnb⟩, _⟩ := debitSpreadCore_output_tids tf options otype pctLong
    pctShort dteT ssh p hp
  exact debitSpread_matched_pair _ _ p.tid htV hnb

/-- C9 (amended).  The debit-spread builders store signed quantities: every
long leg is emitted with quantity +1 and direction `L`, every short leg with
quantity -1 and direction `S` — the stored quantity of a short leg is
negative, so sign information is carried by the quantity column as well as
the direction column (downstream PnL uses `abs(quantity)` with the direction
providing the side). -/
theorem debitSpread_signed_quantities (tf : List EpisodeReq)
    (options : List OptRow) (otype : String) (pctLong pctShort dteT : ℚ)
    (ssh : Bool) (p : PosRow)
    (hp : p ∈ debitSpreadCore tf options otype pctLong pctShort dteT ssh) :
    (p.quantity = 1 ∧ p.direction = "L") ∨
      (p.quantity = -1 ∧ p.direction = "S") :=
  (debitSpreadCore_output_tids tf options otype pctLong pctShort dteT ssh p hp).2


/-! ## Concrete data for the builder and selector claims.
Two call contracts on (ticker 7, date 5): contract 1 at the money
(pct_from_strike 0, strike 100, DTE 30), contract 2 out of the money
(pct_from_strike -1, strike 110, DTE 50); both with a missing price column
(`NaN` in `last`). -/

/-- At-the-money call, strike 100, DTE 30, missing price. -/
def o1c : OptRow := ⟨1, 7, 5, "C", some 30, none, some 0, some 100, none, none, none, none⟩

/-- OTM call, strike 110, DTE 50, missing price. -/
def o2c : OptRow := ⟨2, 7, 5, "C", some 50, none, some (-1), some 110, none, none, none, none⟩

/-- The concrete option chain. -/
def cexOpts : List OptRow := [o1c, o2c]

/-- One episode on ticker 7 ending at date 5. -/
def cexTf : List EpisodeReq := [⟨7, 5⟩]

/-- The long-leg request (pct target 0). -/
def r0L : SelReq := ⟨0, 7, 5, 0, 0, 30⟩

/-- The short-leg request (pct target -1). -/
def r0S : SelReq := ⟨0, 7, 5, -1, 0, 30⟩

/-- The selected long leg: contract 1, missing price. -/
def longRowC : SelRow := ⟨0, 7, 5, 1, 30, none, some 0, some 100⟩

/-- The selected short leg: contract 2, missing price. -/
def shortRowC : SelRow := ⟨0, 7, 5, 2, 50, none, some (-1), some 110⟩

theorem cex_baseL : baseReq cexTf 0 30 = [r0L] := by
  simp [baseReq, cexTf, r0L, List.enum, List.enumFrom]

theorem cex_baseS : baseReq cexTf (-1) 30 = [r0S] := by
  simp [baseReq, cexTf, r0S, List.enum, List.enumFrom]

theorem cex_optfL : optTypeTickerDateFilter cexOpts [r0L] "C" = cexOpts := by
  simp [optTypeTickerDateFilter, cexOpts, o1c, o2c, r0L]

theorem cex_optfS : optTypeTickerDateFilter cexOpts [r0S] "C" = cexOpts := by
  simp [optTypeTickerDateFilter, cexOpts, o1c, o2c, r0S]

theorem cex_joinL : joinCands cexOpts [r0L] "C" = [(o1c, r0L), (o2c, r0L)] := by
  rw [joinCands, cex_optfL]
  simp [cexOpts, o1c, o2c, r0L]

theorem cex_joinS : joinCands cexOpts [r0S] "C" = [(o1c, r0S), (o2c, r0S)] := by
  rw [joinCands, cex_optfS]
  simp [cexOpts, o1c, o2c, r0S]

theorem cex_preL : preDTE cexOpts [r0L] "C" none none false = [(o1c, r0L), (o2c, r0L)] := by
  have d1 : ((0:ℚ) ≤ 30) := by norm_num
  have d2 : ((0:ℚ) ≤ 50) := by norm_num
  rw [preDTE, cex_joinL]
  simp [dteOkB, oiOkB, volOkB, quoteOkB, o1c, o2c, d1, d2]

theorem cex_preS : preDTE cexOpts [r0S] "C" none none false = [(o1c, r0S), (o2c, r0S)] := by
  have d1 : ((0:ℚ) ≤ 30) := by norm_num
  have d2 : ((0:ℚ) ≤ 50) := by norm_num
  rw [preDTE, cex_joinS]
  simp [dteOkB, oiOkB, volOkB, quoteOkB, o1c, o2c, d1, d2]

theorem cex_postExclL : postExcl cexOpts [r0L] "C" none none none false =
    [(o1c, r0L), (o2c, r0L)] := by
  rw [postExcl, cex_preL]
  simp [exclOkB]

theorem cex_postExclS : postExcl cexOpts [r0S] "C" (some [(0, 1)]) none none false =
    [(o2c, r0S)] := by
  rw [postExcl, cex_preS]
  simp [exclOkB, List.find?, o1c, o2c, r0S]

theorem cex_dteminL : postDTEmin cexOpts [r0L] "C" none none none false =
    [(o1c, r0L)] := by
  have hd1 : dteDistQ (o1c, r0L) = 0 := by
    show |(30:ℚ) - 30| = 0
    rw [show (30:ℚ) - 30 = 0 from by norm_num]
    exact abs_zero
  have hd2 : dteDistQ (o2c, r0L) = 20 := by
    show |(50:ℚ) - 30| = 20
    rw [show (50:ℚ) - 30 = 20 from by norm_num]
    exact abs_of_nonneg (by norm_num)
  have c2 : ((0:ℚ) ≤ 20) := by norm_num
  have c3 : ¬ ((20:ℚ) ≤ 0) := by norm_num
  rw [postDTEmin, cex_postExclL]
  simp [hd1, hd2, c2, c3, show r0L.tid = 0 from rfl]

theorem cex_dteminS : postDTEmin cexOpts [r0S] "C" (some [(0, 1)]) none none false =
    [(o2c, r0S)] := by
  have hd2 : dteDistQ (o2c, r0S) = 20 := by
    show |(50:ℚ) - 30| = 20
    rw [show (50:ℚ) - 30 = 20 from by norm_num]
    exact abs_of_nonneg (by norm_num)
  rw [postDTEmin, cex_postExclS]
  simp [hd2, show r0S.tid = 0 from rfl]

theorem cex_finalL : finalCands "pct" cexOpts [r0L] "C" none none none false =
    [(o1c, r0L)] := by
  rw [finalCands, cex_dteminL]
  simp [distOf, o1c, r0L]

theorem cex_finalS : finalCands "pct" cexOpts [r0S] "C" (some [(0, 1)]) none none false =
    [(o2c, r0S)] := by
  rw [finalCands, cex_dteminS]
  simp [distOf, o2c, r0S]

theorem cex_selOutL : selOut "pct" [(o1c, r0L)] = [longRowC] := by
  simp [selOut, sortByKey, insertByKey, o1c, r0L, longRowC, List.dedup,
    List.find?, List.filter, firstSome]

theorem cex_selOutS : selOut "pct" [(o2c, r0S)] = [shortRowC] := by
  simp [selOut, sortByKey, insertByKey, o2c, r0S, shortRowC, List.dedup,
    List.find?, List.filter, firstSome]

theorem cex_batchL : selectBatch cexOpts [r0L] "C" "pct" none none none false =
    .ok [longRowC] := by
  rw [selectBatch]
  rw [if_neg (by simp [cexOpts])]
  rw [cex_optfL, if_neg (by simp [cexOpts])]
  rw [cex_joinL, if_neg (by simp)]
  rw [cex_preL, if_neg (by simp)]
  rw [cex_postExclL, if_neg (by simp)]
  rw [cex_dteminL, if_neg (by simp)]
  rw [if_pos (by simp)]
  rw [cex_finalL, if_neg (by simp)]
  rw [cex_selOutL]

theorem cex_batchS : selectBatch cexOpts [r0S] "C" "pct" (some [(0, 1)]) none none false =
    .ok [shortRowC] := by
  rw [selectBatch]
  rw [if_neg (by simp [cexOpts])]
  rw [cex_optfS, if_neg (by simp [cexOpts])]
  rw [cex_joinS, if_neg (by simp)]
  rw [cex_preS, if_neg (by simp)]
  rw [cex_postExclS, if_neg (by simp)]
  rw [cex_dteminS, if_neg (by simp)]
  rw [if_pos (by simp)]
  rw [cex_finalS, if_neg (by simp)]
  rw [cex_selOutS]

theorem cex_longSel : selectPct cexOpts cexTf "C" 0 30 none = [longRowC] := by
  rw [selectPct, cex_baseL, cex_batchL]
  rfl

theorem cex_shortSel : selectPct cexOpts cexTf "C" (-1) 30 (some [(0, 1)]) = [shortRowC] := by
  rw [selectPct, cex_baseS, cex_batchS]
  rfl

/-- Concrete evaluation of the bull-call debit-spread core on `cexTf` and
`cexOpts`: the trade survives with one long and one short position row. -/
theorem cex_coreEval : debitSpreadCore cexTf cexOpts "C" 0 (-1) 30 true =
    [⟨1, 5, 0, 7, 1, "L"⟩, ⟨2, 5, 0, 7, -1, "S"⟩] := by
  have hmap : (List.map (fun s => (s.tid, s.oid)) [longRowC] : List (ℕ × ℕ)) = [(0, 1)] := by
    simp [longRowC]
  have hvalid : validTids [longRowC] [shortRowC] = [0] := by
    simp [validTids, longRowC, shortRowC]
  have hlv : selByTids [longRowC] [0] = [longRowC] := by
    simp [selByTids, List.find?, longRowC]
  have hsv : selByTids [shortRowC] [0] = [shortRowC] := by
    simp [selByTids, List.find?, shortRowC]
  have hprice : checkPriceGtBad [longRowC] [shortRowC] = [] := by
    simp [checkPriceGtBad, List.find?, longRowC, shortRowC]
  have hstrike : checkStrikeGtBad [shortRowC] [longRowC] = [] := by
    have hq : ((100:ℚ) < 110) := by norm_num
    simp [checkStrikeGtBad, List.find?, longRowC, shortRowC, hq]
  simp only [debitSpreadCore, cex_longSel, hmap, cex_shortSel, hvalid, hlv, hsv,
    hprice, hstrike]
  simp [cexTf, longRowC, shortRowC, posFromSel, sortPositions, sortByKey,
    insertByKey, sortPosKey, Prod.Lex.le_iff]

/-- C5 counterexample.  On the concrete chain both selected legs carry a
missing price, yet the bull-call builder emits the trade: its position table
is nonempty while the long leg's selected price is `none`, so "long leg price
strictly greater than short leg price" fails for a trade present in the
output. -/
theorem bullCall_missing_price_trade_kept :
    findBullCallDebitSpread cexTf cexOpts 0 (-1) 30 =
      [⟨1, 5, 0, 7, 1, "L"⟩, ⟨2, 5, 0, 7, -1, "S"⟩] ∧
    (selectPct cexOpts cexTf "C" 0 30 none).map (fun s => s.price) = [none] := by
  constructor
  · rw [findBullCallDebitSpread]
    exact cex_coreEval
  · simp [cex_longSel, longRowC]

/-- C9 counterexample.  The bull-call builder stores the short leg with
quantity -1: a Position row whose stored quantity is negative, contradicting
"quantities are magnitudes, sign carried only via direction". -/
theorem short_leg_stored_negative_quantity :
    ∃ p ∈ findBullCallDebitSpread cexTf cexOpts 0 (-1) 30,
      p.quantity < 0 ∧ p.direction = "S" := by
  refine ⟨⟨2, 5, 0, 7, -1, "S"⟩, ?_, by norm_num, rfl⟩
  rw [findBullCallDebitSpread, cex_coreEval]
  simp

/-- Witness for C2 at a concrete input: the selection on `cexOpts` for the
long-leg request, instantiating `selectBatch_selects_nearest`. -/
theorem selectBatch_selects_nearest_witness :
    ∃ c ∈ finalCands "pct" cexOpts [r0L] "C" none none none false,
      c.2.tid = longRowC.tid ∧ c.1.oid = longRowC.oid ∧ c.1.dte = some longRowC.dte ∧
      (∀ c2 ∈ postExcl cexOpts [r0L] "C" none none none false,
        c2.2.tid = longRowC.tid → dteDistQ c ≤ dteDistQ c2) ∧
      (∀ c2 ∈ finalCands "pct" cexOpts [r0L] "C" none none none false,
        c2.2.tid = longRowC.tid → sortKeyOf "pct" c ≤ sortKeyOf "pct" c2) :=
  selectBatch_selects_nearest cexOpts [r0L] "C" "pct" none none none false
    [longRowC] longRowC cex_batchL (by simp)

/-- Witness for C8 at a concrete input: with surviving candidates and the
invalid target kind `"mid"`, the selector raises the configuration error. -/
theorem selectBatch_invalid_kind_witness :
    selectBatch cexOpts [r0L] "C" "mid" none none none false =
      .error .badTargetKind := by
  rw [selectBatch_invalid_kind cexOpts [r0L] "C" "mid" none none none false
    (by decide) (by decide)]
  rw [cex_dteminL]
  rfl

/-- Witness for C5 at a concrete input: the long position row of the
concrete bull-call build, instantiating `debitSpread_price_invariant`. -/
theorem debitSpread_price_invariant_witness :
    ∃ l s : SelRow,
      l ∈ selectPct cexOpts cexTf "C" 0 30 none ∧
      s ∈ selectPct cexOpts cexTf "C" (-1) 30
        (some ((selectPct cexOpts cexTf "C" 0 30 none).map
          (fun x => (x.tid, x.oid)))) ∧
      l.tid = (⟨1, 5, 0, 7, 1, "L"⟩ : PosRow).tid ∧
      s.tid = (⟨1, 5, 0, 7, 1, "L"⟩ : PosRow).tid ∧
      ∀ lp sp, l.price = some lp → s.price = some sp → sp < lp :=
  debitSpread_price_invariant cexTf cexOpts "C" 0 (-1) 30 true
    ⟨1, 5, 0, 7, 1, "L"⟩ (by rw [cex_coreEval]; simp)

/-- Witness for C9 at a concrete input: the short position row of the
concrete bull-call build, instantiating `debitSpread_signed_quantities`. -/
theorem debitSpread_signed_quantities_witness :
    ((⟨2, 5, 0, 7, -1, "S"⟩ : PosRow).quantity = 1 ∧
      (⟨2, 5, 0, 7, -1, "S"⟩ : PosRow).direction = "L") ∨
    ((⟨2, 5, 0, 7, -1, "S"⟩ : PosRow).quantity = -1 ∧
      (⟨2, 5, 0, 7, -1, "S"⟩ : PosRow).direction = "S") :=
  debitSpread_signed_quantities cexTf cexOpts "C" 0 (-1) 30 true
    ⟨2, 5, 0, 7, -1, "S"⟩ (by rw [cex_coreEval]; simp)


/-! ## Episode detector (`find_trades`)
The detector works per ticker (the groupby makes each ticker's series
independent), so the embedding takes one ticker's price series as a list
indexed by trading-day position.  A forward price beyond the series end and
a nonpositive start price both yield a NaN percent move in the source, whose
comparisons are false, so the hit predicate is false there. -/

/-- Percent move from `p0` to `p1`. -/
def pctMove (p0 p1 : ℚ) : ℚ := (p1 - p0) / p0

/-- The hit condition: `pct >= thr` when the direction is Up,
`pct <= -thr` when Down. -/
def hitCondB (up : Bool) (thr pm : ℚ) : Bool :=
  if up then decide (thr ≤ pm) else decide (pm ≤ -thr)

/-- Earliest hit offset `k` in 1..N for row `i`: the forward row must exist,
the start price must be positive, and the move must satisfy the hit
condition (the `argmax` over the hit matrix of the earliest `True`). -/
def firstHitK (prices : List ℚ) (N : ℕ) (thr : ℚ) (up : Bool) (i : ℕ) :
    Option ℕ :=
  (List.range' 1 N).find? (fun k =>
    match prices[i]?, prices[i + k]? with
    | some p0, some p1 => decide (0 < p0) && hitCondB up thr (pctMove p0 p1)
    | _, _ => false)

/-- One detected episode: per-ticker positions, prices, earliest hit offset
and percent move (in percent). -/
structure Episode where
  startPos : ℕ
  endPos : ℕ
  startPrice : ℚ
  endPrice : ℚ
  daysToThreshold : ℕ
  movePct : ℚ
deriving DecidableEq, Repr

/-- The candidate episode of row `i` with earliest hit offset `k`. -/
def mkEpisode (prices : List ℚ) (i k : ℕ) : Episode :=
  ⟨i, i + k, (prices[i]?).getD 0, (prices[i + k]?).getD 0, k,
    pctMove ((prices[i]?).getD 0) ((prices[i + k]?).getD 0) * 100⟩

/-- All candidate rows in ascending start position (overlap allowed). -/
def findCandidates (prices : List ℚ) (N : ℕ) (thr : ℚ) (up : Bool) :
    List Episode :=
  (List.range prices.length).filterMap
    (fun i => (firstHitK prices N thr up i).map (mkEpisode prices i))

/-- Greedy skip-ahead: keep a candidate if its start position is at least
the next allowed position, then advance the cursor past its end position. -/
def greedyPick (nextAllowed : ℕ) : List Episode → List Episode
  | [] => []
  | e :: t =>
    if nextAllowed ≤ e.startPos then e :: greedyPick (e.endPos + 1) t
    else greedyPick nextAllowed t

/-- `find_trades` for one ticker: threshold `up_x_pct / 100`, candidates in
start order, greedy non-overlap selection (the output stays in start order,
matching the final sort by episode start date). -/
def findTrades (prices : List ℚ) (N : ℕ) (upXPct : ℚ) (up : Bool) :
    List Episode :=
  greedyPick 0 (findCandidates prices N (upXPct / 100) up)

theorem greedyPick_head_bound : ∀ (l : List Episode) (n : ℕ) (b : Episode),
    (greedyPick n l).head? = some b → n ≤ b.startPos := by
  intro l
  induction l with
  | nil => intro n b h; simp [greedyPick] at h
  | cons e t ih =>
    intro n b h
    rw [greedyPick] at h
    by_cases hn : n ≤ e.startPos
    · rw [if_pos hn] at h
      simp only [List.head?_cons] at h
      cases h
      exact hn
    · rw [if_neg hn] at h
      exact ih n b h

theorem greedyPick_chain : ∀ (l : List Episode) (n : ℕ),
    List.Chain' (fun a b => a.endPos < b.startPos) (greedyPick n l) := by
  intro l
  induction l with
  | nil => intro n; simp [greedyPick]
  | cons e t ih =>
    intro n
    rw [greedyPick]
    by_cases hn : n ≤ e.startPos
    · rw [if_pos hn]
      rw [List.chain'_cons']
      refine ⟨?_, ih (e.endPos + 1)⟩
      intro b hb
      have := greedyPick_head_bound t (e.endPos + 1) b hb
      omega
    · rw [if_neg hn]
      exact ih n

/-- C3 (confirmed).  For every price series, the episodes emitted for a
ticker never overlap in trading-day position range: listed in output order,
each episode's end position is strictly below the next one's start
position. -/
theorem findTrades_episodes_nonoverlapping (prices : List ℚ) (N : ℕ)
    (upXPct : ℚ) (up : Bool) :
    List.Chain' (fun a b => a.endPos < b.startPos)
      (findTrades prices N upXPct up) :=
  greedyPick_chain (findCandidates prices N (upXPct / 100) up) 0

theorem mem_greedyPick : ∀ (l : List Episode) (n : ℕ) (e : Episode),
    e ∈ greedyPick n l → e ∈ l := by
  intro l
  induction l with
  | nil => intro n e h; simp [greedyPick] at h
  | cons a t ih =>
    intro n e h
    rw [greedyPick] at h
    by_cases hn : n ≤ a.startPos
    · rw [if_pos hn] at h
      rcases List.mem_cons.mp h with rfl | h
      · exact List.mem_cons_self _ _
      · exact List.mem_cons_of_mem _ (ih _ _ h)
    · rw [if_neg hn] at h
      exact List.mem_cons_of_mem _ (ih _ _ h)

/-- C4 (amended).  Every emitted episode records the earliest offset
1..N whose forward move satisfies the NON-strict threshold condition
(`>= thr` for Up, `<= -thr` for Down): its prices exist at the recorded
positions, the start price is positive, the move at `days_to_threshold`
satisfies the condition, and no earlier offset does. -/
theorem findTrades_earliest_hit (prices : List ℚ) (N : ℕ) (upXPct : ℚ)
    (up : Bool) (e : Episode) (he : e ∈ findTrades prices N upXPct up) :
    ∃ p0 p1, prices[e.startPos]? = some p0 ∧
      prices[e.startPos + e.daysToThreshold]? = some p1 ∧
      e.endPos = e.startPos + e.daysToThreshold ∧
      e.startPrice = p0 ∧ e.endPrice = p1 ∧
      e.movePct = pctMove p0 p1 * 100 ∧
      1 ≤ e.daysToThreshold ∧ e.daysToThreshold ≤ N ∧
      0 < p0 ∧
      hitCondB up (upXPct / 100) (pctMove p0 p1) = true ∧
      ∀ j, 1 ≤ j → j < e.daysToThreshold →
        ∀ q, prices[e.startPos + j]? = some q →
          hitCondB up (upXPct / 100) (pctMove p0 q) = false := by
  have hc : e ∈ findCandidates prices N (upXPct / 100) up :=
    mem_greedyPick _ 0 e he
  unfold findCandidates at hc
  rw [List.mem_filterMap] at hc
  obtain ⟨i, _, hmap⟩ := hc
  obtain ⟨k, hk, hbuild⟩ := Option.map_eq_some'.mp hmap
  obtain ⟨hpred, hk1, hkN, hmin⟩ := find?_range'_spec N 1 hk
  cases hp0 : prices[i]? with
  | none => rw [hp0] at hpred; simp at hpred
  | some p0 =>
    cases hp1 : prices[i + k]? with
    | none => rw [hp0, hp1] at hpred; simp at hpred
    | some p1 =>
      rw [hp0, hp1] at hpred
      rcases Bool.and_eq_true _ _ |>.mp hpred with ⟨hpos, hcond⟩
      have hstart : e.startPos = i := by rw [← hbuild]; rfl
      have hdays : e.daysToThreshold = k := by rw [← hbuild]; rfl
      refine ⟨p0, p1, ?_, ?_, ?_, ?_, ?_, ?_, ?_, ?_, of_decide_eq_true hpos, ?_, ?_⟩
      · rw [hstart, hp0]
      · rw [hstart, hdays, hp1]
      · simp [← hbuild, mkEpisode]
      · simp [← hbuild, mkEpisode, hp0]
      · simp [← hbuild, mkEpisode, hp1]
      · simp [← hbuild, mkEpisode, hp0, hp1]
      · omega
      · omega
      · exact hcond
      · intro j hj1 hj2 q hq
        rw [hstart] at hq
        rw [hdays] at hj2
        have := hmin j hj1 hj2
        rw [hp0, hq] at this
        rcases Bool.and_eq_false_iff.mp this with hx | hx
        · exact absurd hpos (by simp [hx])
        · exact hx

/-- Concrete evaluation for C4: a 2-day series moving exactly +10%,
horizon 1, threshold 10, direction Up. -/
theorem findTrades_exact_threshold_eval :
    findTrades [100, 110] 1 10 true = [⟨0, 1, 100, 110, 1, 10⟩] := by
  have hm : pctMove 100 110 = ((10:ℚ))⁻¹ := by
    rw [pctMove]
    norm_num
  have hgt : ((0:ℚ) < 100) := by norm_num
  have hcond : hitCondB true ((10 : ℚ))⁻¹ (pctMove 100 110) = true := by
    rw [hm, hitCondB, if_pos (by trivial), decide_eq_true_eq]
  have hfirst0 : firstHitK [100, 110] 1 ((10 : ℚ))⁻¹ true 0 = some 1 := by
    rw [firstHitK]
    simp [List.range', List.find?, hcond, hgt]
  have hfirst1 : firstHitK [100, 110] 1 ((10 : ℚ))⁻¹ true 1 = none := by
    rw [firstHitK]
    simp [List.range', List.find?]
  have hcand : findCandidates [100, 110] 1 ((10 : ℚ))⁻¹ true =
      [⟨0, 1, 100, 110, 1, 10⟩] := by
    rw [findCandidates]
    simp [List.range_succ, List.range_zero, hfirst0, hfirst1, mkEpisode, hm]
    norm_num
  rw [findTrades, show ((10:ℚ) / 100) = ((10:ℚ))⁻¹ from by norm_num, hcand, greedyPick]
  simp [greedyPick]

/-- C4 counterexample.  The emitted episode's move equals the threshold
exactly (10% vs threshold 10): the code's hit test is `>=`, so the claim's
"strictly greater than the threshold for Up" is false on the code. -/
theorem findTrades_threshold_not_strict :
    findTrades [100, 110] 1 10 true = [⟨0, 1, 100, 110, 1, 10⟩] ∧
    ¬ ((10 : ℚ) / 100 < pctMove 100 110) := by
  refine ⟨findTrades_exact_threshold_eval, ?_⟩
  rw [pctMove]
  norm_num

/-- Witness for C4 at a concrete input: the exactly-at-threshold episode,
instantiating `findTrades_earliest_hit`. -/
theorem findTrades_earliest_hit_witness :
    ∃ p0 p1, ([100, 110] : List ℚ)[(⟨0, 1, 100, 110, 1, 10⟩ : Episode).startPos]? = some p0 ∧
      ([100, 110] : List ℚ)[(⟨0, 1, 100, 110, 1, 10⟩ : Episode).startPos +
        (⟨0, 1, 100, 110, 1, 10⟩ : Episode).daysToThreshold]? = some p1 ∧
      (⟨0, 1, 100, 110, 1, 10⟩ : Episode).endPos =
        (⟨0, 1, 100, 110, 1, 10⟩ : Episode).startPos +
          (⟨0, 1, 100, 110, 1, 10⟩ : Episode).daysToThreshold ∧
      (⟨0, 1, 100, 110, 1, 10⟩ : Episode).startPrice = p0 ∧
      (⟨0, 1, 100, 110, 1, 10⟩ : Episode).endPrice = p1 ∧
      (⟨0, 1, 100, 110, 1, 10⟩ : Episode).movePct = pctMove p0 p1 * 100 ∧
      1 ≤ (⟨0, 1, 100, 110, 1, 10⟩ : Episode).daysToThreshold ∧
      (⟨0, 1, 100, 110, 1, 10⟩ : Episode).daysToThreshold ≤ 1 ∧
      0 < p0 ∧
      hitCondB true ((10 : ℚ) / 100) (pctMove p0 p1) = true ∧
      ∀ j, 1 ≤ j → j < (⟨0, 1, 100, 110, 1, 10⟩ : Episode).daysToThreshold →
        ∀ q, ([100, 110] : List ℚ)[(⟨0, 1, 100, 110, 1, 10⟩ : Episode).startPos + j]? = some q →
          hitCondB true ((10 : ℚ) / 100) (pctMove p0 q) = false :=
  findTrades_earliest_hit [100, 110] 1 10 true ⟨0, 1, 100, 110, 1, 10⟩
    (by rw [findTrades_exact_threshold_eval]; simp)


/-! ## Risk calculator (`_max_loss_gain_from_legs`)
One leg after the source's `ok` mask: finite strike/side/quantity/multiplier
and a definite call-or-put type.  The trade's legs and the trade cost are
the per-trade inputs of the loop body. -/

/-- One valid leg of a trade. -/
structure RiskLeg where
  strike : ℚ
  isCall : Bool
  side : ℚ
  qty : ℚ
  mult : ℚ
deriving DecidableEq, Repr

/-- The leg's signed size: `side_sign * quantity_abs * multiplier`. -/
def legCoef (l : RiskLeg) : ℚ := l.side * l.qty * l.mult

/-- Vanilla payoff of one contract at terminal price `S`:
`max(S - K, 0)` for a call, `max(K - S, 0)` for a put. -/
def legPayoff (S : ℚ) (l : RiskLeg) : ℚ :=
  if l.isCall then max (S - l.strike) 0 else max (l.strike - S) 0

/-- Portfolio payoff at `S`: the coefficient-weighted sum over legs. -/
def paySum (legs : List RiskLeg) (S : ℚ) : ℚ :=
  (legs.map (fun l => legCoef l * legPayoff S l)).sum

/-- Expiration pnl at `S`: payoff minus trade cost. -/
def portfolioPnl (legs : List RiskLeg) (cost : ℚ) (S : ℚ) : ℚ :=
  paySum legs S - cost

/-- Net call slope above the highest strike: the sum of `side * qty * mult`
over call legs. -/
def slopeHigh (legs : List RiskLeg) : ℚ :=
  ((legs.filter (fun l => l.isCall)).map legCoef).sum

/-- The candidate terminal prices: `np.unique` of 0 and the strikes
(ascending, duplicates removed). -/
def sPoints (legs : List RiskLeg) : List ℚ :=
  sortByKey (fun q => q) ((0 :: legs.map (fun l => l.strike)).dedup)

/-- Minimum of the pnl over the candidate prices (`np.min(pnl_exp)`); the
candidate list always contains 0, so the empty arm is dead. -/
def minPnlPts (legs : List RiskLeg) (cost : ℚ) : ℚ :=
  match (sPoints legs).map (portfolioPnl legs cost) with
  | [] => 0
  | v :: vs => nmin v vs

/-- Maximum of the pnl over the candidate prices (`np.max(pnl_exp)`). -/
def maxPnlPts (legs : List RiskLeg) (cost : ℚ) : ℚ :=
  match (sPoints legs).map (portfolioPnl legs cost) with
  | [] => 0
  | v :: vs => nmax v vs

/-- A max-loss / max-gain value: `np.inf` or a finite amount. -/
inductive MaxVal where
  | inf
  | fin (q : ℚ)
deriving DecidableEq, Repr

/-- The per-trade result row: max loss, max gain (missing on a trade with no
valid legs, mirroring the `(nan, nan, False, False)` arm) and the two
unboundedness flags. -/
structure RiskOut where
  maxLoss : Option MaxVal
  maxGain : Option MaxVal
  ubRisk : Bool
  ubGain : Bool
deriving DecidableEq, Repr

/-- The per-trade body of `_max_loss_gain_from_legs`: flags from the sign of
the high-`S` slope, extrema over the candidate prices, clipped at 0,
`np.inf` under the corresponding flag. -/
def maxLossGainFromLegs (legs : List RiskLeg) (cost : ℚ) : RiskOut :=
  if legs.isEmpty then ⟨none, none, false, false⟩
  else
    ⟨some (if slopeHigh legs < 0 then MaxVal.inf
           else MaxVal.fin (max 0 (-(minPnlPts legs cost)))),
     some (if 0 < slopeHigh legs then MaxVal.inf
           else MaxVal.fin (max 0 (maxPnlPts legs cost))),
     decide (slopeHigh legs < 0), decide (0 < slopeHigh legs)⟩

theorem legPayoff_affine (l : RiskLeg) (a b S : ℚ)
    (haS : a ≤ S) (hSb : S ≤ b) (hK : l.strike ≤ a ∨ b ≤ l.strike) :
    (b - a) * legPayoff S l = (b - S) * legPayoff a l + (S - a) * legPayoff b l := by
  unfold legPayoff
  rcases hK with hk | hk
  · by_cases hc : l.isCall
    · rw [if_pos hc, if_pos hc, if_pos hc]
      rw [max_eq_left (by linarith), max_eq_left (by linarith),
        max_eq_left (by linarith)]
      ring
    · rw [if_neg hc, if_neg hc, if_neg hc]
      rw [max_eq_right (by linarith), max_eq_right (by linarith),
        max_eq_right (by linarith)]
      ring
  · by_cases hc : l.isCall
    · rw [if_pos hc, if_pos hc, if_pos hc]
      rw [max_eq_right (by linarith), max_eq_right (by linarith),
        max_eq_right (by linarith)]
      ring
    · rw [if_neg hc, if_neg hc, if_neg hc]
      rw [max_eq_left (by linarith), max_eq_left (by linarith),
        max_eq_left (by linarith)]
      ring

theorem paySum_affine (legs : List RiskLeg) (a b S : ℚ)
    (haS : a ≤ S) (hSb : S ≤ b)
    (hK : ∀ l ∈ legs, l.strike ≤ a ∨ b ≤ l.strike) :
    (b - a) * paySum legs S = (b - S) * paySum legs a + (S - a) * paySum legs b := by
  induction legs with
  | nil => simp [paySum]
  | cons l t ih =>
    have hl := hK l (List.mem_cons_self _ _)
    have ht := fun x hx => hK x (List.mem_cons_of_mem _ hx)
    have h1 := legPayoff_affine l a b S haS hSb hl
    have h2 := ih ht
    simp only [paySum, List.map_cons, List.sum_cons] at h2 ⊢
    ring_nf
    ring_nf at h1 h2
    linear_combination legCoef l * h1 + h2

theorem portfolioPnl_affine (legs : List RiskLeg) (cost : ℚ) (a b S : ℚ)
    (haS : a ≤ S) (hSb : S ≤ b)
    (hK : ∀ l ∈ legs, l.strike ≤ a ∨ b ≤ l.strike) :
    (b - a) * portfolioPnl legs cost S =
      (b - S) * portfolioPnl legs cost a + (S - a) * portfolioPnl legs cost b := by
  unfold portfolioPnl
  have := paySum_affine legs a b S haS hSb hK
  ring_nf
  ring_nf at this
  linear_combination this

theorem affine_lower (a b S x y v : ℚ) (hab : a < b) (haS : a ≤ S) (hSb : S ≤ b)
    (hid : (b - a) * v = (b - S) * x + (S - a) * y) : min x y ≤ v := by
  nlinarith [min_le_left x y, min_le_right x y,
    mul_nonneg (by linarith : (0:ℚ) ≤ b - S) (by linarith [min_le_left x y] : (0:ℚ) ≤ x - min x y),
    mul_nonneg (by linarith : (0:ℚ) ≤ S - a) (by linarith [min_le_right x y] : (0:ℚ) ≤ y - min x y)]

theorem affine_upper (a b S x y v : ℚ) (hab : a < b) (haS : a ≤ S) (hSb : S ≤ b)
    (hid : (b - a) * v = (b - S) * x + (S - a) * y) : v ≤ max x y := by
  nlinarith [le_max_left x y, le_max_right x y,
    mul_nonneg (by linarith : (0:ℚ) ≤ b - S) (by linarith [le_max_left x y] : (0:ℚ) ≤ max x y - x),
    mul_nonneg (by linarith : (0:ℚ) ≤ S - a) (by linarith [le_max_right x y] : (0:ℚ) ≤ max x y - y)]

theorem paySum_flat_above (legs : List RiskLeg) (M S : ℚ) (hMS : M ≤ S)
    (hK : ∀ l ∈ legs, l.strike ≤ M) :
    paySum legs S = paySum legs M + slopeHigh legs * (S - M) := by
  induction legs with
  | nil => simp [paySum, slopeHigh]
  | cons l t ih =>
    have hl := hK l (List.mem_cons_self _ _)
    have ht := fun x hx => hK x (List.mem_cons_of_mem _ hx)
    have h2 := ih ht
    by_cases hc : l.isCall
    · have hcall : legPayoff S l = S - l.strike := by
        unfold legPayoff
        rw [if_pos hc, max_eq_left (by linarith)]
      have hcallM : legPayoff M l = M - l.strike := by
        unfold legPayoff
        rw [if_pos hc, max_eq_left (by linarith)]
      have hslope : slopeHigh (l :: t) = legCoef l + slopeHigh t := by
        simp [slopeHigh, List.filter_cons, hc]
      simp only [paySum, List.map_cons, List.sum_cons] at h2 ⊢
      rw [hcall, hcallM, hslope]
      have h2' : paySum t S = paySum t M + slopeHigh t * (S - M) := h2
      simp only [paySum] at h2'
      linear_combination h2'
    · have hput : legPayoff S l = 0 := by
        unfold legPayoff
        rw [if_neg hc, max_eq_right (by linarith)]
      have hputM : legPayoff M l = 0 := by
        unfold legPayoff
        rw [if_neg hc, max_eq_right (by linarith)]
      have hslope : slopeHigh (l :: t) = slopeHigh t := by
        simp [slopeHigh, List.filter_cons, hc]
      simp only [paySum, List.map_cons, List.sum_cons] at h2 ⊢
      rw [hput, hputM, hslope]
      linear_combination h2


theorem zero_mem_sPoints (legs : List RiskLeg) : (0:ℚ) ∈ sPoints legs := by
  rw [sPoints, mem_sortByKey]
  exact List.mem_dedup.mpr (List.mem_cons_self _ _)

theorem strike_mem_sPoints {legs : List RiskLeg} {l : RiskLeg} (hl : l ∈ legs) :
    l.strike ∈ sPoints legs := by
  rw [sPoints, mem_sortByKey]
  exact List.mem_dedup.mpr (List.mem_cons_of_mem _ (List.mem_map_of_mem _ hl))

theorem mem_sPoints_cases {legs : List RiskLeg} {x : ℚ} (hx : x ∈ sPoints legs) :
    x = 0 ∨ ∃ l ∈ legs, x = l.strike := by
  rw [sPoints, mem_sortByKey] at hx
  rcases List.mem_cons.mp (List.mem_dedup.mp hx) with h | h
  · exact Or.inl h
  · obtain ⟨l, hl, hlx⟩ := List.mem_map.mp h
    exact Or.inr ⟨l, hl, hlx.symm⟩

theorem sPoints_nonneg {legs : List RiskLeg} (hK : ∀ l ∈ legs, 0 ≤ l.strike)
    {p : ℚ} (hp : p ∈ sPoints legs) : 0 ≤ p := by
  rcases mem_sPoints_cases hp with rfl | ⟨l, hl, rfl⟩
  · exact le_refl 0
  · exact hK l hl

theorem minPnlPts_le {legs : List RiskLeg} (cost : ℚ) {p : ℚ}
    (hp : p ∈ sPoints legs) : minPnlPts legs cost ≤ portfolioPnl legs cost p := by
  have hmem : portfolioPnl legs cost p ∈ (sPoints legs).map (portfolioPnl legs cost) :=
    List.mem_map_of_mem _ hp
  unfold minPnlPts
  cases hm : (sPoints legs).map (portfolioPnl legs cost) with
  | nil => rw [hm] at hmem; cases hmem
  | cons v vs =>
    rw [hm] at hmem
    rcases List.mem_cons.mp hmem with h | h
    · rw [h]; exact nmin_le_head v vs
    · exact nmin_le_mem v h

theorem le_maxPnlPts {legs : List RiskLeg} (cost : ℚ) {p : ℚ}
    (hp : p ∈ sPoints legs) : portfolioPnl legs cost p ≤ maxPnlPts legs cost := by
  have hmem : portfolioPnl legs cost p ∈ (sPoints legs).map (portfolioPnl legs cost) :=
    List.mem_map_of_mem _ hp
  unfold maxPnlPts
  cases hm : (sPoints legs).map (portfolioPnl legs cost) with
  | nil => rw [hm] at hmem; cases hmem
  | cons v vs =>
    rw [hm] at hmem
    rcases List.mem_cons.mp hmem with h | h
    · rw [h]; exact le_nmax_head v vs
    · exact le_nmax_mem v h

theorem minPnlPts_attained (legs : List RiskLeg) (cost : ℚ) :
    ∃ p ∈ sPoints legs, portfolioPnl legs cost p = minPnlPts legs cost := by
  have h0 : portfolioPnl legs cost 0 ∈ (sPoints legs).map (portfolioPnl legs cost) :=
    List.mem_map_of_mem _ (zero_mem_sPoints legs)
  unfold minPnlPts
  cases hm : (sPoints legs).map (portfolioPnl legs cost) with
  | nil => rw [hm] at h0; cases h0
  | cons v vs =>
    have hv : nmin v vs ∈ v :: vs := by
      rcases nmin_eq_head_or_mem v vs with h | h
      · rw [h]; exact List.mem_cons_self _ _
      · exact List.mem_cons_of_mem _ h
    rw [← hm] at hv
    obtain ⟨p, hp, hpe⟩ := List.mem_map.mp hv
    exact ⟨p, hp, hpe⟩

theorem maxPnlPts_attained (legs : List RiskLeg) (cost : ℚ) :
    ∃ p ∈ sPoints legs, portfolioPnl legs cost p = maxPnlPts legs cost := by
  have h0 : portfolioPnl legs cost 0 ∈ (sPoints legs).map (portfolioPnl legs cost) :=
    List.mem_map_of_mem _ (zero_mem_sPoints legs)
  unfold maxPnlPts
  cases hm : (sPoints legs).map (portfolioPnl legs cost) with
  | nil => rw [hm] at h0; cases h0
  | cons v vs =>
    have hv : nmax v vs ∈ v :: vs := by
      rcases nmax_eq_head_or_mem v vs with h | h
      · rw [h]; exact List.mem_cons_self _ _
      · exact List.mem_cons_of_mem _ h
    rw [← hm] at hv
    obtain ⟨p, hp, hpe⟩ := List.mem_map.mp hv
    exact ⟨p, hp, hpe⟩

theorem exists_max_of_mem {x : ℚ} {xs : List ℚ} (hx : x ∈ xs) :
    ∃ m ∈ xs, ∀ y ∈ xs, y ≤ m := by
  cases xs with
  | nil => cases hx
  | cons v vs =>
    refine ⟨nmax v vs, ?_, ?_⟩
    · rcases nmax_eq_head_or_mem v vs with h | h
      · rw [h]; exact List.mem_cons_self _ _
      · exact List.mem_cons_of_mem _ h
    · intro y hy
      rcases List.mem_cons.mp hy with rfl | hy
      · exact le_nmax_head _ _
      · exact le_nmax_mem _ hy

theorem exists_min_of_mem {x : ℚ} {xs : List ℚ} (hx : x ∈ xs) :
    ∃ m ∈ xs, ∀ y ∈ xs, m ≤ y := by
  cases xs with
  | nil => cases hx
  | cons v vs =>
    refine ⟨nmin v vs, ?_, ?_⟩
    · rcases nmin_eq_head_or_mem v vs with h | h
      · rw [h]; exact List.mem_cons_self _ _
      · exact List.mem_cons_of_mem _ h
    · intro y hy
      rcases List.mem_cons.mp hy with rfl | hy
      · exact nmin_le_head _ _
      · exact nmin_le_mem _ hy

theorem pnl_local (legs : List RiskLeg) (cost S : ℚ) (hS : 0 ≤ S) :
    (minPnlPts legs cost ≤ portfolioPnl legs cost S ∧
     portfolioPnl legs cost S ≤ maxPnlPts legs cost) ∨
    ∃ M ∈ sPoints legs, M ≤ S ∧
      portfolioPnl legs cost S =
        portfolioPnl legs cost M + slopeHigh legs * (S - M) := by
  by_cases hmem : S ∈ sPoints legs
  · exact Or.inl ⟨minPnlPts_le cost hmem, le_maxPnlPts cost hmem⟩
  by_cases hup : ∃ p ∈ sPoints legs, S ≤ p
  · left
    obtain ⟨p, hpP, hSp⟩ := hup
    have h0low : (0:ℚ) ∈ (sPoints legs).filter (fun x => decide (x ≤ S)) :=
      List.mem_filter.mpr ⟨zero_mem_sPoints legs, by simpa using hS⟩
    obtain ⟨a, haf, hamax⟩ := exists_max_of_mem h0low
    have haP : a ∈ sPoints legs := (List.mem_filter.mp haf).1
    have haS : a ≤ S := by simpa using (List.mem_filter.mp haf).2
    have hpub : p ∈ (sPoints legs).filter (fun x => decide (S ≤ x)) :=
      List.mem_filter.mpr ⟨hpP, by simpa using hSp⟩
    obtain ⟨b, hbf, hbmin⟩ := exists_min_of_mem hpub
    have hbP : b ∈ sPoints legs := (List.mem_filter.mp hbf).1
    have hSb : S ≤ b := by simpa using (List.mem_filter.mp hbf).2
    have haltS : a < S := lt_of_le_of_ne haS (by rintro rfl; exact hmem haP)
    have hSltb : S < b := lt_of_le_of_ne hSb (by rintro rfl; exact hmem hbP)
    have hab : a < b := lt_trans haltS hSltb
    have hKseg : ∀ l ∈ legs, l.strike ≤ a ∨ b ≤ l.strike := by
      intro l hl
      by_cases hls : l.strike ≤ S
      · exact Or.inl (hamax _
          (List.mem_filter.mpr ⟨strike_mem_sPoints hl, by simpa using hls⟩))
      · exact Or.inr (hbmin _
          (List.mem_filter.mpr ⟨strike_mem_sPoints hl, by simpa using le_of_not_le hls⟩))
    have hid := portfolioPnl_affine legs cost a b S (le_of_lt haltS) (le_of_lt hSltb) hKseg
    constructor
    · exact le_trans (le_min (minPnlPts_le cost haP) (minPnlPts_le cost hbP))
        (affine_lower a b S _ _ _ hab (le_of_lt haltS) (le_of_lt hSltb) hid)
    · exact le_trans
        (affine_upper a b S _ _ _ hab (le_of_lt haltS) (le_of_lt hSltb) hid)
        (max_le (le_maxPnlPts cost haP) (le_maxPnlPts cost hbP))
  · right
    push_neg at hup
    obtain ⟨M, hMP, hMmax⟩ := exists_max_of_mem (zero_mem_sPoints legs)
    have hKM : ∀ l ∈ legs, l.strike ≤ M := fun l hl => hMmax _ (strike_mem_sPoints hl)
    have hMS : M ≤ S := le_of_lt (hup M hMP)
    refine ⟨M, hMP, hMS, ?_⟩
    unfold portfolioPnl
    rw [paySum_flat_above legs M S hMS hKM]
    ring

theorem minPnlPts_le_pnl (legs : List RiskLeg) (cost : ℚ)
    (hsl : 0 ≤ slopeHigh legs) (S : ℚ) (hS : 0 ≤ S) :
    minPnlPts legs cost ≤ portfolioPnl legs cost S := by
  rcases pnl_local legs cost S hS with ⟨h, _⟩ | ⟨M, hMP, hMS, heq⟩
  · exact h
  · have hM := minPnlPts_le cost hMP
    rw [heq]
    nlinarith [mul_nonneg hsl (by linarith : (0:ℚ) ≤ S - M)]

theorem pnl_le_maxPnlPts (legs : List RiskLeg) (cost : ℚ)
    (hsl : slopeHigh legs ≤ 0) (S : ℚ) (hS : 0 ≤ S) :
    portfolioPnl legs cost S ≤ maxPnlPts legs cost := by
  rcases pnl_local legs cost S hS with ⟨_, h⟩ | ⟨M, hMP, hMS, heq⟩
  · exact h
  · have hM := le_maxPnlPts cost hMP
    rw [heq]
    nlinarith [mul_nonneg (neg_nonneg.mpr hsl) (by linarith : (0:ℚ) ≤ S - M)]


/-- The spec's worked example: one short call, strike 100, qty 1,
multiplier 100, credit 500 (cost basis -500). -/
def shortCallLegs : List RiskLeg := [⟨100, true, -1, 1, 100⟩]

theorem shortCall_slope : slopeHigh shortCallLegs = -100 := by
  simp [shortCallLegs, slopeHigh, legCoef, List.filter]

theorem shortCall_sPoints : sPoints shortCallLegs = [0, 100] := by
  rw [sPoints]
  rw [show ((0 :: shortCallLegs.map (fun l => l.strike)).dedup : List ℚ)
      = ([0, 100] : List ℚ).dedup from rfl]
  rw [List.dedup_cons_of_not_mem (by norm_num),
    List.dedup_cons_of_not_mem (List.not_mem_nil _), List.dedup_nil]
  rw [sortByKey]
  simp [insertByKey]

theorem shortCall_pnl0 : portfolioPnl shortCallLegs (-500) 0 = 500 := by
  simp [portfolioPnl, paySum, shortCallLegs, legCoef, legPayoff]

theorem shortCall_pnl100 : portfolioPnl shortCallLegs (-500) 100 = 500 := by
  simp [portfolioPnl, paySum, shortCallLegs, legCoef, legPayoff]

theorem shortCall_maxPnl : maxPnlPts shortCallLegs (-500) = 500 := by
  unfold maxPnlPts
  rw [shortCall_sPoints]
  rw [List.map_cons, List.map_cons, List.map_nil, shortCall_pnl0, shortCall_pnl100]
  simp [nmax]

theorem shortCall_eval :
    maxLossGainFromLegs shortCallLegs (-500) =
      ⟨some MaxVal.inf, some (MaxVal.fin 500), true, false⟩ := by
  rw [maxLossGainFromLegs, if_neg (by simp [shortCallLegs])]
  rw [shortCall_slope, shortCall_maxPnl]
  rw [if_pos (by norm_num : (-100:ℚ) < 0), if_neg (by norm_num : ¬ (0:ℚ) < -100)]
  rw [max_eq_right (by norm_num : (0:ℚ) ≤ 500)]
  simp only [RiskOut.mk.injEq, decide_eq_true_eq, decide_eq_false_iff_not]
  norm_num

/-- C6: the unboundedness flags hold exactly when the net call slope
`sum(side * qty * mult over call legs)` is negative (risk) / positive (gain);
when all strikes are nonnegative and the corresponding flag is off, the finite
`max_trade_gain` (resp. `max_trade_loss`) reported from the candidate prices
`S = 0` and the distinct strikes is the exact extremum of expiration pnl over
all terminal prices `S ≥ 0`, clipped at 0; and the spec's short-call example
yields `unbounded_risk = True`, `max_trade_gain = 500`. -/
theorem risk_flags_and_extrema (legs : List RiskLeg) (cost : ℚ)
    (hK : ∀ l ∈ legs, 0 ≤ l.strike) :
    ((maxLossGainFromLegs legs cost).ubRisk = true ↔ slopeHigh legs < 0) ∧
    ((maxLossGainFromLegs legs cost).ubGain = true ↔ 0 < slopeHigh legs) ∧
    (legs ≠ [] → slopeHigh legs ≤ 0 →
      (maxLossGainFromLegs legs cost).maxGain =
        some (MaxVal.fin (max 0 (maxPnlPts legs cost))) ∧
      (∀ S : ℚ, 0 ≤ S → portfolioPnl legs cost S ≤ maxPnlPts legs cost) ∧
      ∃ S2, 0 ≤ S2 ∧ portfolioPnl legs cost S2 = maxPnlPts legs cost) ∧
    (legs ≠ [] → 0 ≤ slopeHigh legs →
      (maxLossGainFromLegs legs cost).maxLoss =
        some (MaxVal.fin (max 0 (-(minPnlPts legs cost)))) ∧
      (∀ S : ℚ, 0 ≤ S → minPnlPts legs cost ≤ portfolioPnl legs cost S) ∧
      ∃ S1, 0 ≤ S1 ∧ portfolioPnl legs cost S1 = minPnlPts legs cost) ∧
    maxLossGainFromLegs shortCallLegs (-500) =
      ⟨some MaxVal.inf, some (MaxVal.fin 500), true, false⟩ := by
  refine ⟨?_, ?_, ?_, ?_, shortCall_eval⟩
  · by_cases hE : legs.isEmpty = true
    · have h0 : legs = [] := by
        cases legs with
        | nil => rfl
        | cons a t => simp [List.isEmpty] at hE
      subst h0
      simp [maxLossGainFromLegs, slopeHigh]
    · rw [maxLossGainFromLegs, if_neg hE]
      simp
  · by_cases hE : legs.isEmpty = true
    · have h0 : legs = [] := by
        cases legs with
        | nil => rfl
        | cons a t => simp [List.isEmpty] at hE
      subst h0
      simp [maxLossGainFromLegs, slopeHigh]
    · rw [maxLossGainFromLegs, if_neg hE]
      simp
  · intro hne hsl
    have hE : ¬ legs.isEmpty = true := by
      cases legs with
      | nil => exact absurd rfl hne
      | cons a t => simp [List.isEmpty]
    refine ⟨?_, fun S hS => pnl_le_maxPnlPts legs cost hsl S hS, ?_⟩
    · rw [maxLossGainFromLegs, if_neg hE]
      simp [not_lt.mpr hsl]
    · obtain ⟨p, hpP, hpe⟩ := maxPnlPts_attained legs cost
      exact ⟨p, sPoints_nonneg hK hpP, hpe⟩
  · intro hne hsl
    have hE : ¬ legs.isEmpty = true := by
      cases legs with
      | nil => exact absurd rfl hne
      | cons a t => simp [List.isEmpty]
    refine ⟨?_, fun S hS => minPnlPts_le_pnl legs cost hsl S hS, ?_⟩
    · rw [maxLossGainFromLegs, if_neg hE]
      simp [not_lt.mpr hsl]
    · obtain ⟨p, hpP, hpe⟩ := minPnlPts_attained legs cost
      exact ⟨p, sPoints_nonneg hK hpP, hpe⟩

theorem risk_flags_and_extrema_witness :
    (∀ l ∈ shortCallLegs, 0 ≤ l.strike) ∧
    ((maxLossGainFromLegs shortCallLegs (-500)).ubRisk = true ↔
      slopeHigh shortCallLegs < 0) := by
  have hK : ∀ l ∈ shortCallLegs, 0 ≤ l.strike := by
    intro l hl
    simp only [shortCallLegs, List.mem_singleton] at hl
    subst hl
    norm_num
  exact ⟨hK, (risk_flags_and_extrema shortCallLegs (-500) hK).1⟩

/-- A pair of call legs with one negative parsed strike; slope above the
highest strike is zero, so both flags are off and the finite extrema are
reported. -/
def riskCexLegs : List RiskLeg := [⟨-10, true, 1, 1, 1⟩, ⟨0, true, -1, 1, 1⟩]

theorem riskCex_slope : slopeHigh riskCexLegs = 0 := by
  simp [riskCexLegs, slopeHigh, legCoef, List.filter]

theorem riskCex_sPoints : sPoints riskCexLegs = [-10, 0] := by
  rw [sPoints]
  rw [show ((0 :: riskCexLegs.map (fun l => l.strike)).dedup : List ℚ)
      = ([0, -10, 0] : List ℚ).dedup from rfl]
  rw [List.dedup_cons_of_mem (by norm_num),
    List.dedup_cons_of_not_mem (by norm_num),
    List.dedup_cons_of_not_mem (List.not_mem_nil _), List.dedup_nil]
  rw [sortByKey]
  simp [insertByKey]

theorem riskCex_pnlNeg10 : portfolioPnl riskCexLegs 10 (-10) = -10 := by
  simp [portfolioPnl, paySum, riskCexLegs, legCoef, legPayoff]

theorem riskCex_pnl0 : portfolioPnl riskCexLegs 10 0 = 0 := by
  simp [portfolioPnl, paySum, riskCexLegs, legCoef, legPayoff]

theorem riskCex_minPnl : minPnlPts riskCexLegs 10 = -10 := by
  unfold minPnlPts
  rw [riskCex_sPoints]
  rw [List.map_cons, List.map_cons, List.map_nil, riskCex_pnlNeg10, riskCex_pnl0]
  simp [nmin]

/-- C6 counterexample: a negative parsed strike puts a negative candidate
price in `S_points`; the reported finite `max_trade_loss` is 10, yet the
expiration pnl is identically 0 over every terminal price `S ≥ 0`, so the
reported extremum is not the true one over `S ≥ 0`. -/
theorem risk_negative_strike_counterexample :
    slopeHigh riskCexLegs = 0 ∧
    (maxLossGainFromLegs riskCexLegs 10).maxLoss = some (MaxVal.fin 10) ∧
    ∀ S : ℚ, 0 ≤ S → portfolioPnl riskCexLegs 10 S = 0 := by
  refine ⟨riskCex_slope, ?_, ?_⟩
  · rw [maxLossGainFromLegs, if_neg (by simp [riskCexLegs])]
    rw [riskCex_slope, riskCex_minPnl]
    rw [if_neg (by norm_num : ¬ (0:ℚ) < 0)]
    norm_num
  · intro S hS
    simp [portfolioPnl, paySum, riskCexLegs, legCoef, legPayoff]
    rw [max_eq_left (by linarith : (0:ℚ) ≤ S + 10), max_eq_left hS]
    ring


/-! ## Option chain joiner (`get_option_chains`)
A quote row of the options data after `reset_index`: instrument id, date and
the two price columns, with missing prices as `none`.  Percentage changes are
float-valued: dividing a nonzero price by a zero baseline gives a signed
infinity that survives `.fillna(0)`, while any NaN operand makes the result
NaN, which `.fillna(0)` turns into 0. -/

/-- One row of the quotes table. -/
structure QuoteRow where
  qid : ℕ
  qdate : ℕ
  last : Option ℚ
  mark : Option ℚ
deriving DecidableEq, Repr

/-- One requested (id, start_date) key. -/
structure KeyPair where
  kid : ℕ
  sdate : ℕ
deriving DecidableEq, Repr

/-- A float result of `x / b - 1` after `.fillna(0)`: finite, or a signed
infinity produced by division of a nonzero price by a zero baseline. -/
inductive FVal where
  | num (q : ℚ)
  | pinf
  | ninf
deriving DecidableEq, Repr

/-- `x / b - 1` with pandas float semantics, then `.fillna(0)`:
a NaN operand gives NaN and hence 0; a zero baseline gives `inf - 1 = inf`
(sign of `x`), or `0/0 = NaN` and hence 0. -/
def pctChange (x b : Option ℚ) : FVal :=
  match x, b with
  | some xv, some bv =>
    if bv = 0 then
      if 0 < xv then FVal.pinf
      else if xv < 0 then FVal.ninf
      else FVal.num 0
    else FVal.num (xv / bv - 1)
  | _, _ => FVal.num 0

/-- Inner merge of the quotes with the keys on `id`, then
`query("date >= start_date")`. -/
def joinedQC (keys : List KeyPair) (data : List QuoteRow) :
    List (QuoteRow × KeyPair) :=
  (data.bind (fun r =>
    (keys.filter (fun k => k.kid == r.qid)).map (fun k => (r, k)))).filter
    (fun p => decide (p.2.sdate ≤ p.1.qdate))

/-- The `sort_values(["id", "start_date", "date"])` key. -/
def chainKey (p : QuoteRow × KeyPair) : ℕ ×ₗ (ℕ ×ₗ ℕ) :=
  toLex (p.1.qid, toLex (p.2.sdate, p.1.qdate))

/-- The merged frame after the stable sort. -/
def sortedQC (keys : List KeyPair) (data : List QuoteRow) :
    List (QuoteRow × KeyPair) :=
  sortByKey chainKey (joinedQC keys data)

/-- The rows of one `(id, start_date)` group, in sorted order. -/
def groupRows (keys : List KeyPair) (data : List QuoteRow) (i sd : ℕ) :
    List (QuoteRow × KeyPair) :=
  (sortedQC keys data).filter (fun p => p.1.qid == i && p.2.sdate == sd)

/-- `groupby(["id","start_date"], sort=False).first()["last"]`: the first
non-missing `last` of the group in date order. -/
def baselineLast (keys : List KeyPair) (data : List QuoteRow) (i sd : ℕ) :
    Option ℚ :=
  ((groupRows keys data i sd).filterMap (fun p => p.1.last)).head?

/-- The mark-column baseline, same rule. -/
def baselineMark (keys : List KeyPair) (data : List QuoteRow) (i sd : ℕ) :
    Option ℚ :=
  ((groupRows keys data i sd).filterMap (fun p => p.1.mark)).head?

/-- One output row of `get_option_chains`. -/
structure ChainOutRow where
  oid : ℕ
  sdate : ℕ
  odate : ℕ
  last : Option ℚ
  mark : Option ℚ
  entryLast : Option ℚ
  entryMark : Option ℚ
  lastPct : FVal
  markPct : FVal
deriving DecidableEq, Repr

/-- The output row built from one merged row: the joined `day0` baselines and
the two filled percentage changes. -/
def chainOutOf (keys : List KeyPair) (data : List QuoteRow)
    (p : QuoteRow × KeyPair) : ChainOutRow :=
  { oid := p.1.qid, sdate := p.2.sdate, odate := p.1.qdate,
    last := p.1.last, mark := p.1.mark,
    entryLast := baselineLast keys data p.1.qid p.2.sdate,
    entryMark := baselineMark keys data p.1.qid p.2.sdate,
    lastPct := pctChange p.1.last (baselineLast keys data p.1.qid p.2.sdate),
    markPct := pctChange p.1.mark (baselineMark keys data p.1.qid p.2.sdate) }

/-- `get_option_chains`: one output row per merged-and-filtered quote row. -/
def getOptionChains (keys : List KeyPair) (data : List QuoteRow) :
    List ChainOutRow :=
  (sortedQC keys data).map (chainOutOf keys data)

theorem groupRows_sorted (keys : List KeyPair) (data : List QuoteRow)
    (i sd : ℕ) :
    (groupRows keys data i sd).Pairwise (fun p q => p.1.qdate ≤ q.1.qdate) := by
  have hpw : (sortedQC keys data).Pairwise (fun p q => chainKey p ≤ chainKey q) :=
    pairwise_sortByKey chainKey (joinedQC keys data)
  have hsub : (groupRows keys data i sd).Sublist (sortedQC keys data) :=
    List.filter_sublist _
  have hpw2 : (groupRows keys data i sd).Pairwise
      (fun p q => chainKey p ≤ chainKey q) := hpw.sublist hsub
  refine hpw2.imp_of_mem ?_
  intro a b ha hb hk
  have ha' := (List.mem_filter.mp ha).2
  have hb' := (List.mem_filter.mp hb).2
  simp only [Bool.and_eq_true, beq_iff_eq] at ha' hb'
  unfold chainKey at hk
  simp only [Prod.Lex.le_iff] at hk
  rcases hk with hk | ⟨heq, hk2⟩
  · rw [ha'.1, hb'.1] at hk
    exact absurd hk (lt_irrefl i)
  · rcases hk2 with hk2 | ⟨heq2, hk3⟩
    · rw [ha'.2, hb'.2] at hk2
      exact absurd hk2 (lt_irrefl sd)
    · exact hk3

theorem filterMap_head?_split {α β : Type} (f : α → Option β) (l : List α)
    (v : β) (h : (l.filterMap f).head? = some v) :
    ∃ pre p post, l = pre ++ p :: post ∧ (∀ q ∈ pre, f q = none) ∧
      f p = some v := by
  induction l with
  | nil => simp [List.filterMap] at h
  | cons a t ih =>
    cases ha : f a with
    | some w =>
      rw [List.filterMap_cons, ha] at h
      simp only [List.head?_cons, Option.some_inj] at h
      refine ⟨[], a, t, by simp, by simp, ?_⟩
      rw [ha, h]
    | none =>
      rw [List.filterMap_cons, ha] at h
      obtain ⟨pre, p, post, heq, hpre, hp⟩ := ih h
      refine ⟨a :: pre, p, post, by rw [heq]; rfl, ?_, hp⟩
      intro q hq
      rcases List.mem_cons.mp hq with rfl | hq
      · exact ha
      · exact hpre q hq

theorem baselineLast_none_iff (keys : List KeyPair) (data : List QuoteRow)
    (i sd : ℕ) :
    baselineLast keys data i sd = none ↔
      ∀ p ∈ groupRows keys data i sd, p.1.last = none := by
  rw [baselineLast, List.head?_eq_none_iff, List.filterMap_eq_nil]


/-- C7: every output row of `get_option_chains` comes from a merged quote row
of a requested id, in range of its start date; it carries the group baselines
joined from `day0`, and its percentage changes are `x / baseline - 1` under
float semantics with `.fillna(0)`: 0 when the row value or the baseline is
missing, the finite ratio when the baseline is nonzero, and `+inf` (not 0)
when the baseline is zero and the row value positive; the baseline of a group
is the value of its first row in date order carrying a non-missing value
(`none` exactly when the whole group is missing), the group being sorted by
date. -/
theorem chain_baseline_and_pct (keys : List KeyPair) (data : List QuoteRow)
    (r : ChainOutRow) (hr : r ∈ getOptionChains keys data) :
    (∃ k ∈ keys, k.kid = r.oid ∧ k.sdate = r.sdate) ∧
    r.sdate ≤ r.odate ∧
    r.entryLast = baselineLast keys data r.oid r.sdate ∧
    r.entryMark = baselineMark keys data r.oid r.sdate ∧
    r.lastPct = pctChange r.last r.entryLast ∧
    r.markPct = pctChange r.mark r.entryMark ∧
    (r.entryLast = none → r.lastPct = FVal.num 0) ∧
    (r.last = none → r.lastPct = FVal.num 0) ∧
    (∀ b x, r.entryLast = some b → b ≠ 0 → r.last = some x →
      r.lastPct = FVal.num (x / b - 1)) ∧
    (∀ x, r.entryLast = some 0 → r.last = some x → 0 < x →
      r.lastPct = FVal.pinf) ∧
    (baselineLast keys data r.oid r.sdate = none ↔
      ∀ p ∈ groupRows keys data r.oid r.sdate, p.1.last = none) ∧
    (∀ v, baselineLast keys data r.oid r.sdate = some v →
      ∃ pre p post, groupRows keys data r.oid r.sdate = pre ++ p :: post ∧
        (∀ q ∈ pre, q.1.last = none) ∧ p.1.last = some v) ∧
    (groupRows keys data r.oid r.sdate).Pairwise
      (fun p q => p.1.qdate ≤ q.1.qdate) := by
  obtain ⟨p, hpmem, rfl⟩ := List.mem_map.mp hr
  have hpj : p ∈ joinedQC keys data := (mem_sortByKey chainKey p _).mp hpmem
  have hpf := List.mem_filter.mp hpj
  have hdate : p.2.sdate ≤ p.1.qdate := by simpa using hpf.2
  have hpb := hpf.1
  rw [List.mem_bind] at hpb
  obtain ⟨q, hq, hpq⟩ := hpb
  obtain ⟨k, hkf, hpk⟩ := List.mem_map.mp hpq
  have hkmem : k ∈ keys := (List.mem_filter.mp hkf).1
  have hkid : k.kid = q.qid := by simpa using (List.mem_filter.mp hkf).2
  refine ⟨⟨k, hkmem, ?_, ?_⟩, hdate, rfl, rfl, rfl, rfl, ?_, ?_, ?_, ?_,
    baselineLast_none_iff keys data _ _,
    fun v hv => filterMap_head?_split _ _ v hv,
    groupRows_sorted keys data _ _⟩
  · rw [hkid]
    rw [← hpk]
    rfl
  · rw [← hpk]
    rfl
  · intro hb
    show pctChange p.1.last (baselineLast keys data p.1.qid p.2.sdate) = FVal.num 0
    rw [show baselineLast keys data p.1.qid p.2.sdate = none from hb]
    cases p.1.last <;> rfl
  · intro hx
    show pctChange p.1.last (baselineLast keys data p.1.qid p.2.sdate) = FVal.num 0
    rw [show p.1.last = none from hx]
    rfl
  · intro b x hb hbne hx
    show pctChange p.1.last (baselineLast keys data p.1.qid p.2.sdate) =
      FVal.num (x / b - 1)
    rw [show p.1.last = some x from hx,
      show baselineLast keys data p.1.qid p.2.sdate = some b from hb]
    simp [pctChange, hbne]
  · intro x hb hx hxpos
    show pctChange p.1.last (baselineLast keys data p.1.qid p.2.sdate) =
      FVal.pinf
    rw [show p.1.last = some x from hx,
      show baselineLast keys data p.1.qid p.2.sdate = some 0 from hb]
    simp [pctChange, hxpos]

/-- Concrete data for the zero-baseline behaviour: one key, two dated quotes
whose entry-day `last` is 0. -/
def kc : KeyPair := ⟨0, 0⟩

def q0c : QuoteRow := ⟨0, 0, some 0, some 0⟩

def q1c : QuoteRow := ⟨0, 1, some 5, some 0⟩

def cChainData : List QuoteRow := [q0c, q1c]

theorem cChain_join : joinedQC [kc] cChainData = [(q0c, kc), (q1c, kc)] := by
  simp [joinedQC, cChainData, q0c, q1c, kc, List.filter]

theorem cChain_key_le : chainKey (q0c, kc) ≤ chainKey (q1c, kc) := by
  show toLex ((0:ℕ), toLex ((0:ℕ), (0:ℕ))) ≤ toLex ((0:ℕ), toLex ((0:ℕ), (1:ℕ)))
  rw [Prod.Lex.le_iff]
  right
  refine ⟨rfl, ?_⟩
  rw [Prod.Lex.le_iff]
  right
  exact ⟨rfl, by norm_num⟩

theorem cChain_sorted : sortedQC [kc] cChainData = [(q0c, kc), (q1c, kc)] := by
  rw [sortedQC, cChain_join]
  rw [show sortByKey chainKey [(q0c, kc), (q1c, kc)]
      = insertByKey chainKey (q0c, kc) [(q1c, kc)] from rfl]
  rw [insertByKey, if_pos cChain_key_le]

theorem cChain_group : groupRows [kc] cChainData 0 0 = [(q0c, kc), (q1c, kc)] := by
  rw [groupRows, cChain_sorted]
  simp [q0c, q1c, kc, List.filter]

theorem cChain_baselineLast : baselineLast [kc] cChainData 0 0 = some 0 := by
  rw [baselineLast, cChain_group]
  simp [q0c, q1c]

/-- C7 counterexample: the second quote of the group has `last = 5` against a
zero entry-day baseline; its `trade_last_pct_change` is `+inf` (5/0 - 1 with
`.fillna(0)` not applying), not the claimed 0. -/
theorem chain_zero_baseline_counterexample :
    ∃ r ∈ getOptionChains [kc] cChainData,
      r.entryLast = some 0 ∧ r.lastPct = FVal.pinf := by
  refine ⟨chainOutOf [kc] cChainData (q1c, kc), ?_, ?_, ?_⟩
  · exact List.mem_map_of_mem _
      (by rw [cChain_sorted]; exact List.mem_cons_of_mem _ (List.mem_cons_self _ _))
  · show baselineLast [kc] cChainData q1c.qid kc.sdate = some 0
    exact cChain_baselineLast
  · show pctChange q1c.last (baselineLast [kc] cChainData q1c.qid kc.sdate) =
      FVal.pinf
    rw [show baselineLast [kc] cChainData q1c.qid kc.sdate = some 0
      from cChain_baselineLast]
    simp [pctChange, q1c]

theorem chain_baseline_and_pct_witness :
    (chainOutOf [kc] cChainData (q0c, kc) ∈ getOptionChains [kc] cChainData) ∧
    ∃ k ∈ [kc], k.kid = (chainOutOf [kc] cChainData (q0c, kc)).oid ∧
      k.sdate = (chainOutOf [kc] cChainData (q0c, kc)).sdate := by
  have hm : chainOutOf [kc] cChainData (q0c, kc) ∈ getOptionChains [kc] cChainData :=
    List.mem_map_of_mem _ (by rw [cChain_sorted]; exact List.mem_cons_self _ _)
  exact ⟨hm, (chain_baseline_and_pct [kc] cChainData _ hm).1⟩


end Spec2Proof
